import Mathlib

/-! # devstream plugin engine: executor and reference resolver

A shallow embedding of `internal/pkg/pluginengine/change.go`
(`execute`, `handleResult`, `fillRefValueWithOutputs`, `isValidRefFormat`,
`getRefFormatString`) together with theorems about it.

Modelling conventions.

* A Go `string` is a list of characters (`Str`).
* A Go `error` is its message; `Option Err` is a possibly-nil `error`.
* An `interface{}` value is a tree (`Value`).  A `map[string]interface{}` is the
  list of its entries (`Fields`) in the order in which a `range` loop visits
  them.  The keys of a Go map are distinct, so the assignment `options[key] = v`
  made while the loop visits `key` replaces the value of the entry being visited.
  A nil map is the empty list of entries.
* The State Manager (`statemanager.Manager`) and the plugin entry points
  (`Create`, `Update`, `Delete`) are external to `change.go`.  They are taken as
  parameters: a record of operations over an abstract manager state `M` and an
  abstract outside world `W`, threaded explicitly.
* Calls of `log.*` have no effect on the values computed and are left out.
* `execute` and `handleResult` also return the list of outward calls they made
  (`Event`), in order.  This list is not part of the Go program; it is what lets
  a theorem speak of a call having been made or not.
-/

namespace Devstream

/-! ## Strings -/

/-- Go strings, as lists of characters. -/
abbrev Str := List Char

/-- Go errors, identified with their message. -/
abbrev Err := Str

/-- Go `strings.HasPrefix`. -/
def HasPrefix : Str → Str → Bool
  | _, [] => true
  | [], _ :: _ => false
  | c :: s, p :: ps => c == p && HasPrefix s ps

/-- Go `strings.HasSuffix`. -/
def HasSuffix (s suffix : Str) : Bool :=
  HasPrefix s.reverse suffix.reverse

/-- Go `strings.TrimPrefix`. -/
def TrimPrefix (s pre : Str) : Str :=
  if HasPrefix s pre then s.drop pre.length else s

/-- Go `strings.TrimSuffix`. -/
def TrimSuffix (s suffix : Str) : Str :=
  if HasSuffix s suffix then s.take (s.length - suffix.length) else s

/-- Go `unicode.IsSpace`: the characters with the Unicode White_Space property. -/
def isSpace (c : Char) : Bool :=
  let n := c.toNat
  (9 ≤ n && n ≤ 13) || n == 32 || n == 133 || n == 160 || n == 5760 ||
  (8192 ≤ n && n ≤ 8202) || n == 8232 || n == 8233 || n == 8239 || n == 8287 ||
  n == 12288

/-- Go `strings.TrimSpace`. -/
def TrimSpace (s : Str) : Str :=
  ((s.dropWhile isSpace).reverse.dropWhile isSpace).reverse

/-- Go `strings.Split(s, sep)` for a separator of one character. -/
def Split : Str → Char → List Str
  | [], _ => [[]]
  | c :: cs, sep =>
    if c = sep then [] :: Split cs sep
    else
      match Split cs sep with
      | [] => [[c]]
      | seg :: segs => (c :: seg) :: segs

/-! ## Data model -/

mutual

/-- Values of type `interface{}` as they occur in options and outputs. -/
inductive Value where
  | null
  | bool (b : Bool)
  | int (n : Int)
  | str (s : Str)
  | seq (vs : Values)
  | map (m : Fields)

/-- Go slices `[]interface{}`. -/
inductive Values where
  | nil
  | cons (v : Value) (vs : Values)

/-- Go maps `map[string]interface{}`, as their entries in iteration order. -/
inductive Fields where
  | nil
  | cons (key : Str) (value : Value) (rest : Fields)
end

/-- Go `value == nil` for an `interface{}` value. -/
def Value.isNil : Value → Bool
  | .null => true
  | _ => false

/-- Go `v, ok := m[k]`. -/
def Fields.lookup (k : Str) : Fields → Option Value
  | .nil => none
  | .cons key value rest => if key = k then some value else rest.lookup k

/-- The keys of a map, in iteration order. -/
def Fields.keys : Fields → List Str
  | .nil => []
  | .cons key _ rest => key :: rest.keys

/-- The value reached from a map by a path of keys through nested maps. -/
def Fields.getPath : Fields → List Str → Option Value
  | _, [] => none
  | o, [k] => o.lookup k
  | o, k :: k2 :: p =>
    match o.lookup k with
    | some (.map m) => m.getPath (k2 :: p)
    | _ => none

/-- The struct `configloader.Plugin`. -/
structure Plugin where
  Kind : Str
  Version : Str

/-- The struct `configloader.Tool`. -/
structure Tool where
  Name : Str
  InstanceID : Str
  Plugin : Plugin
  DependsOn : List Str
  Options : Fields

/-- The struct `statemanager.State`, with the fields `handleResult` fills. -/
structure State where
  Name : Str
  Plugin : Plugin
  Options : Fields
  Resource : Fields

/-- The type `statemanager.ComponentAction`, a Go string type. -/
abbrev ComponentAction := Str

/-- Modelled from the spec: the constant `statemanager.ActionCreate` (the
package `statemanager` is not among the sources), rendered as the spec
writes the action. -/
def ActionCreate : ComponentAction := ['C', 'r', 'e', 'a', 't', 'e']

/-- Modelled from the spec: the constant `statemanager.ActionUpdate`. -/
def ActionUpdate : ComponentAction := ['U', 'p', 'd', 'a', 't', 'e']

/-- Modelled from the spec: the constant `statemanager.ActionDelete`. -/
def ActionDelete : ComponentAction := ['D', 'e', 'l', 'e', 't', 'e']

/-- The struct `ChangeResult`. -/
structure ChangeResult where
  Succeeded : Bool
  Error : Option Err
  Time : Str
  ReturnValue : Fields

/-- The struct `Change`; `Result` is a pointer and may be nil. -/
structure Change where
  Tool : Tool
  ActionName : ComponentAction
  Result : Option ChangeResult
  Description : Str

/-- The interface `statemanager.Manager` and the key functions of package
`statemanager`, as operations on an abstract manager state `M`. -/
structure Manager (M : Type) where
  GenStateKey : Str → Str → Str
  StateKeyGenerateFunc : Tool → Str
  GetState : M → Str → Option State
  GetOutputs : M → Str → Except Err Value
  AddState : M → Str → State → M × Option Err
  DeleteState : M → Str → M × Option Err

/-- The plugin entry points `Create`, `Update`, `Delete` of package
`pluginengine` and the clock, as operations on an abstract world `W`. -/
structure Plugins (W : Type) where
  Create : W → Tool → W × Fields × Option Err
  Update : W → Tool → W × Fields × Option Err
  Delete : W → Tool → W × Bool × Option Err
  now : W → Str

/-- Outward calls made by the executor, with what they were given and what
the State Manager answered. -/
inductive Event where
  | pluginCreate (t : Tool)
  | pluginUpdate (t : Tool)
  | pluginDelete (t : Tool)
  | addState (key : Str) (state : State) (err : Option Err)
  | deleteState (key : Str) (err : Option Err)

/-- Whether an event is a plugin call. -/
def Event.isPluginCall : Event → Bool
  | .pluginCreate _ => true
  | .pluginUpdate _ => true
  | .pluginDelete _ => true
  | _ => false

/-- Whether an event is a call of `AddState`. -/
def Event.isAddState : Event → Bool
  | .addState _ _ _ => true
  | _ => false

/-- Whether an event is a call of `DeleteState`. -/
def Event.isDeleteState : Event → Bool
  | .deleteState _ _ => true
  | _ => false

/-- Whether an event is a State Manager write that returned an error. -/
def Event.isCommitError : Event → Bool
  | .addState _ _ (some _) => true
  | .deleteState _ (some _) => true
  | _ => false

/-- Go `map[string]error`, as its entries. -/
abbrev ErrorsMap := List (Str × Err)

/-- Go `m[key] = err`. -/
def ErrorsMap.set : ErrorsMap → Str → Err → ErrorsMap
  | [], key, err => [(key, err)]
  | (k, e) :: rest, key, err =>
    if k = key then (k, err) :: rest else (k, e) :: ErrorsMap.set rest key err

/-- Go `if err != nil { m[key] = err }`. -/
def ErrorsMap.record (m : ErrorsMap) (key : Str) : Option Err → ErrorsMap
  | some e => m.set key e
  | none => m

/-- Go `_, ok := m[key]`. -/
def ErrorsMap.hasKey (m : ErrorsMap) (key : Str) : Bool :=
  m.any (fun p => decide (p.1 = key))

/-! ## The reference resolver -/

def REF_PREFIX : Str := ['$', '{', '{']

def REF_SUFFIX : Str := ['}', '}']

def NAME_SEGMENT_NUM : Nat := 0

def KIND_SEGMENT_NUM : Nat := 1

def REF_SEGMENT_NUM : Nat := 3

/-- Go `isValidRefFormat`. -/
def isValidRefFormat (ref : Str) : Bool :=
  HasPrefix ref REF_PREFIX && HasSuffix ref REF_SUFFIX

/-- Go `getRefFormatString`. -/
def getRefFormatString (rawFormatString : Str) : Str :=
  TrimSpace (TrimSuffix (TrimPrefix rawFormatString REF_PREFIX) REF_SUFFIX)

/-- The loop of `fillRefValueWithOutputs` going on to the next entry, the
entry just visited holding `value`. -/
def fillNext (key : Str) (value : Value) (r : Fields × Option Err) : Fields × Option Err :=
  (.cons key value r.1, r.2)

/-- Go `fillRefValueWithOutputs`.  Returns the options as the call leaves them
(the Go function mutates the map in place, also when it returns an error)
and the error returned. -/
def fillRefValueWithOutputs {M : Type} (S : Manager M) (smgr : M) :
    Fields → Fields × Option Err
  | .nil => (.nil, none)
  | .cons key value rest =>
    match value with
    | .str inst =>
      if isValidRefFormat inst then
        let ref := getRefFormatString inst
        let refParam := Split ref '.'
        if refParam.length ≤ 3 then
          (.cons key value rest, some ("incorrect output reference: ".toList ++ ref))
        else
          match S.GetOutputs smgr (S.GenStateKey (refParam.getD NAME_SEGMENT_NUM [])
              (refParam.getD KIND_SEGMENT_NUM [])) with
          | .error err => (.cons key value rest, some err)
          | .ok (.map outs) =>
            if (Value.str inst).isNil then
              (.cons key value rest,
                some ("ref input value is null: ".toList ++ refParam.getD REF_SEGMENT_NUM []))
            else
              match outs.lookup (refParam.getD REF_SEGMENT_NUM []) with
              | none =>
                (.cons key .null rest,
                  some ("can not find ".toList ++ refParam.getD REF_SEGMENT_NUM [] ++
                    " in dependency outputs".toList))
              | some v => fillNext key v (fillRefValueWithOutputs S smgr rest)
          | .ok _ => fillNext key value (fillRefValueWithOutputs S smgr rest)
      else fillNext key value (fillRefValueWithOutputs S smgr rest)
    | .map sub =>
      match fillRefValueWithOutputs S smgr sub with
      | (sub', some err) => (.cons key (.map sub') rest, some err)
      | (sub', none) => fillNext key (.map sub') (fillRefValueWithOutputs S smgr rest)
    | _ => fillNext key value (fillRefValueWithOutputs S smgr rest)

/-! ## The executor -/

/-- What `handleResult` leaves behind: the State Manager, the error returned
and the State Manager calls made. -/
structure Handled (M : Type) where
  smgr : M
  err : Option Err
  calls : List Event

/-- Go `handleResult`.  Returns `none` when `change.Result` is nil (the Go
function dereferences it). -/
def handleResult {M : Type} (S : Manager M) (smgr : M) (change : Change) :
    Option (Handled M) :=
  match change.Result with
  | none => none
  | some result =>
    if !result.Succeeded then
      some
        { smgr := smgr
          err := some ("the tool ".toList ++ change.Tool.Name ++ " (".toList ++
            change.Tool.Plugin.Kind ++ ") ".toList ++ change.ActionName ++ " failed".toList)
          calls := [] }
    else if change.ActionName = ActionDelete then
      let key := S.StateKeyGenerateFunc change.Tool
      match S.DeleteState smgr key with
      | (smgr', some err) =>
        some { smgr := smgr', err := some err, calls := [.deleteState key (some err)] }
      | (smgr', none) =>
        some { smgr := smgr', err := none, calls := [.deleteState key none] }
    else
      let key := S.StateKeyGenerateFunc change.Tool
      let state : State :=
        { Name := change.Tool.Name
          Plugin := change.Tool.Plugin
          Options := change.Tool.Options
          Resource := result.ReturnValue }
      match S.AddState smgr key state with
      | (smgr', some err) =>
        some { smgr := smgr', err := some err, calls := [.addState key state (some err)] }
      | (smgr', none) =>
        some { smgr := smgr', err := none, calls := [.addState key state none] }

/-- What `execute` has computed so far: the world, the State Manager, the
error map, the changes already processed (with their results) and the
outward calls made. -/
structure Run (W M : Type) where
  world : W
  smgr : M
  errorsMap : ErrorsMap
  changes : List Change
  trace : List Event

/-- The local variables of the loop body of `execute` after its `switch`,
with the world as the plugin call leaves it and the plugin call made. -/
structure Dispatched (W : Type) where
  world : W
  succeeded : Bool
  err : Option Err
  returnValue : Fields
  calls : List Event

/-- The `switch c.ActionName` of `execute`.  `succeeded` and `err` enter as the
statements before the switch leave them; `returnValue` enters nil. -/
def dispatch {W : Type} (P : Plugins W) (world : W) (tool : Tool) (action : ComponentAction)
    (succeeded : Bool) (err : Option Err) : Dispatched W :=
  if action = ActionCreate then
    match P.Create world tool with
    | (w, returnValue, none) =>
      { world := w, succeeded := true, err := none, returnValue := returnValue,
        calls := [.pluginCreate tool] }
    | (w, returnValue, some e) =>
      { world := w, succeeded := succeeded, err := some e, returnValue := returnValue,
        calls := [.pluginCreate tool] }
  else if action = ActionUpdate then
    match P.Update world tool with
    | (w, returnValue, none) =>
      { world := w, succeeded := true, err := none, returnValue := returnValue,
        calls := [.pluginUpdate tool] }
    | (w, returnValue, some e) =>
      { world := w, succeeded := succeeded, err := some e, returnValue := returnValue,
        calls := [.pluginUpdate tool] }
  else if action = ActionDelete then
    match P.Delete world tool with
    | (w, succeeded', err') =>
      { world := w, succeeded := succeeded', err := err', returnValue := .nil,
        calls := [.pluginDelete tool] }
  else { world := world, succeeded := succeeded, err := err, returnValue := .nil, calls := [] }

/-- The tool of the change `c` after `fillRefValueWithOutputs(smgr, c.Tool.Options)`:
its options are as the resolver leaves them. -/
def resolvedTool {M : Type} (S : Manager M) (smgr : M) (c : Change) : Tool :=
  { c.Tool with Options := (fillRefValueWithOutputs S smgr c.Tool.Options).1 }

/-- The variable `succeeded` of `execute` before the `switch`:
`var succeeded bool`, then `if err != nil { succeeded = false }`. -/
def succeededBeforeSwitch (err : Option Err) : Bool :=
  match err with
  | some _ => false
  | none => false

/-- The loop body of `execute` for the change `c` up to the end of its `switch`:
the resolver is run, then the action is dispatched whatever the resolver
returned. -/
def stepDispatch {W M : Type} (P : Plugins W) (S : Manager M) (r : Run W M) (c : Change) :
    Dispatched W :=
  dispatch P r.world (resolvedTool S r.smgr c) c.ActionName
    (succeededBeforeSwitch (fillRefValueWithOutputs S r.smgr c.Tool.Options).2)
    (fillRefValueWithOutputs S r.smgr c.Tool.Options).2

/-- The change `c` once the loop body of `execute` has set `c.Result`. -/
def processed {W M : Type} (P : Plugins W) (S : Manager M) (r : Run W M) (c : Change) : Change :=
  { c with
    Tool := resolvedTool S r.smgr c
    Result := some
      { Succeeded := (stepDispatch P S r c).succeeded
        Error := (stepDispatch P S r c).err
        Time := P.now (stepDispatch P S r c).world
        ReturnValue := (stepDispatch P S r c).returnValue } }

/-- The key under which `execute` records the error of a change. -/
def errorKey (c : Change) : Str :=
  c.Tool.Name ++ ['-'] ++ c.ActionName

/-- One iteration of the loop of `execute`, on the change `c`. -/
def executeStep {W M : Type} (P : Plugins W) (S : Manager M) (r : Run W M) (c : Change) :
    Option (Run W M) :=
  match handleResult S r.smgr (processed P S r c) with
  | none => none
  | some h =>
    some
      { world := (stepDispatch P S r c).world
        smgr := h.smgr
        errorsMap := (r.errorsMap.record (errorKey c) (stepDispatch P S r c).err).record
          "handle-result".toList h.err
        changes := r.changes ++ [processed P S r c]
        trace := r.trace ++ (stepDispatch P S r c).calls ++ h.calls }

/-- The loop of `execute` over the changes that remain. -/
def executeLoop {W M : Type} (P : Plugins W) (S : Manager M) :
    Run W M → List Change → Option (Run W M)
  | r, [] => some r
  | r, c :: cs =>
    match executeStep P S r c with
    | none => none
    | some r' => executeLoop P S r' cs

/-- Go `execute`.  The Go function returns `errorsMap`; the other fields of
the result are the State Manager, the world and the changes as the run leaves
them. -/
def execute {W M : Type} (P : Plugins W) (S : Manager M) (world : W) (smgr : M)
    (changes : List Change) : Option (Run W M) :=
  executeLoop P S { world := world, smgr := smgr, errorsMap := [], changes := [], trace := [] }
    changes

/-! ## A concrete State Manager and concrete plugins -/

/-- Modelled from the spec: the state of a State Manager that keeps the State
map in memory (an in-memory map of tool-instance key to State, section 2);
`failWrites` says that its backend refuses writes.  The package
`statemanager` is not among the sources. -/
structure MemState where
  states : List (Str × State)
  failWrites : Bool

/-- Modelled from the spec: the State under a key of the State map, if any. -/
def stateAt (k : Str) : List (Str × State) → Option State
  | [] => none
  | (k', s) :: rest => if k' = k then some s else stateAt k rest

/-- Modelled from the spec: the State map without the entries under a key. -/
def withoutKey (k : Str) : List (Str × State) → List (Str × State)
  | [] => []
  | (k', s) :: rest => if k' = k then withoutKey k rest else (k', s) :: withoutKey k rest

/-- Modelled from the spec: `GetState`, `GetOutputs`, `AddState` and
`DeleteState` of section 4.5 over `MemState`: `GetOutputs` returns the
`Resource` map of the State under the key or an error when there is none,
`AddState` replaces the entry under the key, `DeleteState` removes it; the
key of a tool is made of its `Name` and `InstanceID`. -/
def memManager : Manager MemState where
  GenStateKey a b := a ++ ['_'] ++ b
  StateKeyGenerateFunc t := t.Name ++ ['_'] ++ t.InstanceID
  GetState m k := stateAt k m.states
  GetOutputs m k :=
    match stateAt k m.states with
    | some s => .ok (.map s.Resource)
    | none => .error ("cannot find state by key: ".toList ++ k)
  AddState m k s :=
    if m.failWrites then (m, some "write failed".toList)
    else ({ m with states := (k, s) :: withoutKey k m.states }, none)
  DeleteState m k :=
    if m.failWrites then (m, some "write failed".toList)
    else ({ m with states := withoutKey k m.states }, none)

/-- Plugins that answer every call the same way: `Create` and `Update`
return `outputs` with the error `createErr`, `Delete` returns `deleteOk`
with the error `deleteErr`.  The world counts the calls made. -/
def fixedPlugins (outputs : Fields) (createErr : Option Err) (deleteOk : Bool)
    (deleteErr : Option Err) : Plugins Nat where
  Create w _ := (w + 1, outputs, createErr)
  Update w _ := (w + 1, outputs, createErr)
  Delete w _ := (w + 1, deleteOk, deleteErr)
  now _ := "2022-01-01T00:00:00Z".toList

/-- The plugin call `execute` makes for a tool and an action name. -/
def pluginCallOf (tool : Tool) (action : ComponentAction) : List Event :=
  if action = ActionCreate then [.pluginCreate tool]
  else if action = ActionUpdate then [.pluginUpdate tool]
  else if action = ActionDelete then [.pluginDelete tool]
  else []

/-- Modelled from the spec: the contract of the State Manager (the package
`statemanager` is not among the sources).  The State map holds at most one
State per key; a successful `AddState` puts the State under the key,
replacing what was there, a successful `DeleteState` leaves no State under
the key, neither touches another key, and `GetOutputs` returns the
`Resource` map of the State under the key (sections 3, 4.3 and 4.5). -/
structure Manager.Lawful {M : Type} (S : Manager M) : Prop where
  getState_addState : ∀ m k s, (S.AddState m k s).2 = none →
    S.GetState (S.AddState m k s).1 k = some s
  getState_addState_other : ∀ m k s k', (S.AddState m k s).2 = none → k' ≠ k →
    S.GetState (S.AddState m k s).1 k' = S.GetState m k'
  getState_deleteState : ∀ m k, (S.DeleteState m k).2 = none →
    S.GetState (S.DeleteState m k).1 k = none
  getState_deleteState_other : ∀ m k k', (S.DeleteState m k).2 = none → k' ≠ k →
    S.GetState (S.DeleteState m k).1 k' = S.GetState m k'
  getOutputs_of_getState : ∀ m k s, S.GetState m k = some s →
    S.GetOutputs m k = .ok (.map s.Resource)
  getOutputs_of_no_state : ∀ m k, S.GetState m k = none →
    ∃ e, S.GetOutputs m k = .error e

/-- A State Manager with no State, whose backend accepts writes. -/
def emptyMem : MemState :=
  { states := [], failWrites := false }

/-- A tool `b` one of whose options refers to an output of a tool `a`. -/
def refTool : Tool :=
  { Name := "b".toList
    InstanceID := "default".toList
    Plugin := { Kind := "bkind".toList, Version := "0.1".toList }
    DependsOn := []
    Options := .cons "endpoint".toList (.str "${{a.default.outputs.url}}".toList) .nil }

/-- A tool `a` without references in its options. -/
def plainTool : Tool :=
  { Name := "a".toList
    InstanceID := "default".toList
    Plugin := { Kind := "akind".toList, Version := "0.1".toList }
    DependsOn := []
    Options := .cons "size".toList (.int 3) .nil }

/-- The outputs the example plugins return. -/
def urlOutputs : Fields :=
  .cons "url".toList (.str "https://x".toList) .nil

/-- Plugins whose calls all succeed, returning `urlOutputs`. -/
def okPlugins : Plugins Nat :=
  fixedPlugins urlOutputs none true none

/-- Plugins whose `Create` and `Update` fail with the error `boom`. -/
def failingPlugins : Plugins Nat :=
  fixedPlugins .nil (some "boom".toList) true none

/-- Plugins whose `Delete` returns `(false, nil)`. -/
def refusingPlugins : Plugins Nat :=
  fixedPlugins .nil none false none

/-- The plan creating `refTool` alone. -/
def refPlan : List Change :=
  [{ Tool := refTool, ActionName := ActionCreate, Result := none, Description := [] }]

/-- A change creating `plainTool`. -/
def plainCreate : Change :=
  { Tool := plainTool, ActionName := ActionCreate, Result := none, Description := [] }

/-- A change deleting `plainTool`. -/
def plainDelete : Change :=
  { Tool := plainTool, ActionName := ActionDelete, Result := none, Description := [] }

/-- The State `execute` commits for `plainTool` created by `okPlugins`. -/
def plainState : State :=
  { Name := plainTool.Name, Plugin := plainTool.Plugin, Options := plainTool.Options,
    Resource := urlOutputs }

/-- A State Manager holding `plainState` for `plainTool`. -/
def plainMem : MemState :=
  { states := [("a_default".toList, plainState)], failWrites := false }

/-- An empty run over the world `0` and the State Manager `smgr`. -/
def startRun (smgr : MemState) : Run Nat MemState :=
  { world := 0, smgr := smgr, errorsMap := [], changes := [], trace := [] }

/-- The key under which `execute` records the error returned by `handleResult`. -/
def handleResultKey : Str := "handle-result".toList

/-- The change `c'` is the change `c` of the plan as `execute` leaves it: the
same action on the same tool (its options apart, which the resolver may have
changed), with a result attached. -/
def IsProcessed (c c' : Change) : Prop :=
  c'.ActionName = c.ActionName ∧ c'.Description = c.Description ∧
    c'.Tool.Name = c.Tool.Name ∧ c'.Tool.InstanceID = c.Tool.InstanceID ∧
    c'.Tool.Plugin = c.Tool.Plugin ∧ c'.Tool.DependsOn = c.Tool.DependsOn ∧
    c'.Result ≠ none

/-- The plugin calls of a run that dispatches every change of the list once,
in order. -/
def expectedCalls : List Change → List Event
  | [] => []
  | c :: cs => pluginCallOf c.Tool c.ActionName ++ expectedCalls cs

/-- The plan deleting `plainTool` alone. -/
def deletePlan : List Change :=
  [plainDelete]

/-- The plan creating `plainTool` alone. -/
def createPlan : List Change :=
  [plainCreate]

/-- What the loop body of `fillRefValueWithOutputs` does with the value of
the entry it visits: the value it leaves in the entry and the error it
returns with, if any.  `fillRefValueWithOutputs_cons` states that the
resolver is this body run over the entries until the first error. -/
def fillValue {M : Type} (S : Manager M) (smgr : M) : Value → Value × Option Err
  | .str inst =>
    if isValidRefFormat inst then
      let ref := getRefFormatString inst
      let refParam := Split ref '.'
      if refParam.length ≤ 3 then
        (.str inst, some ("incorrect output reference: ".toList ++ ref))
      else
        match S.GetOutputs smgr (S.GenStateKey (refParam.getD NAME_SEGMENT_NUM [])
            (refParam.getD KIND_SEGMENT_NUM [])) with
        | .error err => (.str inst, some err)
        | .ok (.map outs) =>
          match outs.lookup (refParam.getD REF_SEGMENT_NUM []) with
          | none =>
            (.null,
              some ("can not find ".toList ++ refParam.getD REF_SEGMENT_NUM [] ++
                " in dependency outputs".toList))
          | some v => (v, none)
        | .ok _ => (.str inst, none)
    else (.str inst, none)
  | .map sub =>
    ((Value.map (fillRefValueWithOutputs S smgr sub).1), (fillRefValueWithOutputs S smgr sub).2)
  | v => (v, none)

/-- The text `a.b.outputs.k` of a reference. -/
def refContent (a b k : Str) : Str :=
  a ++ ['.'] ++ b ++ ['.'] ++ "outputs".toList ++ ['.'] ++ k

/-- The string leaf `${{` + `ws1` + `a.b.outputs.k` + `ws2` + `}}`. -/
def refString (ws1 a b k ws2 : Str) : Str :=
  REF_PREFIX ++ ws1 ++ refContent a b k ++ ws2 ++ REF_SUFFIX

/-- The parts of a reference string are well formed: `ws1` and `ws2` are
whitespace, the segments `a`, `b` and `k` hold no dot, and the text
`a.b.outputs.k` neither starts nor ends with whitespace. -/
structure IsRefShape (ws1 a b k ws2 : Str) : Prop where
  ws1_space : ∀ c ∈ ws1, isSpace c = true
  ws2_space : ∀ c ∈ ws2, isSpace c = true
  a_nodot : '.' ∉ a
  b_nodot : '.' ∉ b
  k_nodot : '.' ∉ k
  a_head : ∀ c, a.head? = some c → isSpace c = false
  k_last : ∀ c, k.getLast? = some c → isSpace c = false

/-- A string leaf of the kind of claim C5: a reference `a.b.outputs.k`,
possibly spaced, for which `GetOutputs` returns a map that has the key `k`. -/
def GoodRef {M : Type} (S : Manager M) (smgr : M) (s : Str) : Prop :=
  ∃ ws1 a b k ws2 outs v, IsRefShape ws1 a b k ws2 ∧ s = refString ws1 a b k ws2 ∧
    S.GetOutputs smgr (S.GenStateKey a b) = .ok (.map outs) ∧ outs.lookup k = some v

/-- Every string leaf of the tree, at the top level or inside nested maps,
that starts with `${{` and ends with `}}` satisfies `Q`. -/
def Fields.AllRefs (Q : Str → Prop) : Fields → Prop
  | .nil => True
  | .cons _ (.str s) rest => (isValidRefFormat s = true → Q s) ∧ Fields.AllRefs Q rest
  | .cons _ (.map sub) rest => Fields.AllRefs Q sub ∧ Fields.AllRefs Q rest
  | .cons _ _ rest => Fields.AllRefs Q rest

/-- Options whose first leaf is a malformed reference and whose second leaf
is a reference to the output `url` of the tool `a`. -/
def mixedOptions : Fields :=
  .cons "p".toList (.str "${{x}}".toList)
    (.cons "q".toList (.str "${{a.default.outputs.url}}".toList) .nil)

/-- Options with a spaced reference inside a nested map. -/
def nestedOptions : Fields :=
  .cons "server".toList
    (.map (.cons "endpoint".toList (.str "${{ a.default.outputs.url }}".toList) .nil)) .nil

/-- Options whose leaves are wrapped strings that are not of the shape
`a.b.outputs.k`: one has five segments, the other a third segment that is
not `outputs`. -/
def oddOptions : Fields :=
  .cons "p".toList (.str "${{a.default.outputs.url.more}}".toList)
    (.cons "q".toList (.str "${{a.default.anything.url}}".toList) .nil)

/-- Options whose leaf refers to an output `port` that the tool `a` does not
have. -/
def missingKeyOptions : Fields :=
  .cons "endpoint".toList (.str "${{a.default.outputs.port}}".toList) .nil

/-- Options with a sequence leaf whose elements are a resolvable reference
and a map that holds one. -/
def seqOptions : Fields :=
  .cons "hosts".toList
    (.seq (.cons (.str "${{a.default.outputs.url}}".toList)
      (.cons (.map (.cons "u".toList (.str "${{a.default.outputs.url}}".toList) .nil)) .nil)))
    .nil

/-- Options with the leaf `${{}}`, whose content is empty. -/
def emptyRefOptions : Fields :=
  .cons "e".toList (.str "${{}}".toList) .nil

/-- A State Manager in which the output `url` of the tool `a` is itself a
reference string, to the output `url` of a tool `c`, and its output `more`
is a map that holds such a string and a malformed one. -/
def chainMem : MemState :=
  { states :=
      [("a_default".toList,
        { Name := "a".toList
          Plugin := { Kind := "akind".toList, Version := "0.1".toList }
          Options := .nil
          Resource :=
            .cons "url".toList (.str "${{c.default.outputs.url}}".toList)
              (.cons "more".toList
                (.map (.cons "u".toList (.str "${{c.default.outputs.url}}".toList)
                  (.cons "bad".toList (.str "${{x}}".toList) .nil))) .nil) }),
       ("c_default".toList,
        { Name := "c".toList
          Plugin := { Kind := "ckind".toList, Version := "0.1".toList }
          Options := .nil
          Resource := urlOutputs })]
    failWrites := false }

/-- Options that refer to the outputs `url` and `more` of the tool `a`. -/
def chainOptions : Fields :=
  .cons "endpoint".toList (.str "${{a.default.outputs.url}}".toList)
    (.cons "extra".toList (.str "${{a.default.outputs.more}}".toList) .nil)

/-- A State Manager whose `GetOutputs` returns the number 7, not a map, for
every key; its other operations do nothing. -/
def scalarManager : Manager Unit where
  GenStateKey a b := a ++ ['_'] ++ b
  StateKeyGenerateFunc t := t.Name ++ ['_'] ++ t.InstanceID
  GetState _ _ := none
  GetOutputs _ _ := .ok (.int 7)
  AddState m _ _ := (m, none)
  DeleteState m _ := (m, none)

/-- How the result of a processed change follows from what the plugin
returned when it was called in the world `w` on the tool of the change. -/
def ResultFromPlugin {W : Type} (P : Plugins W) (w : W) (c' : Change) : Prop :=
  ∃ res, c'.Result = some res ∧
    (c'.ActionName = ActionCreate →
      (res.Succeeded = true ↔ (P.Create w c'.Tool).2.2 = none) ∧
        res.Error = (P.Create w c'.Tool).2.2) ∧
    (c'.ActionName = ActionUpdate →
      (res.Succeeded = true ↔ (P.Update w c'.Tool).2.2 = none) ∧
        res.Error = (P.Update w c'.Tool).2.2) ∧
    (c'.ActionName = ActionDelete →
      res.Succeeded = (P.Delete w c'.Tool).2.1 ∧ res.Error = (P.Delete w c'.Tool).2.2)

/-- A tool `b` whose options are `mixedOptions`: a malformed reference, then
a reference to the output `url` of the tool `a`. -/
def mixedTool : Tool :=
  { Name := "b".toList
    InstanceID := "default".toList
    Plugin := { Kind := "bkind".toList, Version := "0.1".toList }
    DependsOn := ["a.default".toList]
    Options := mixedOptions }

/-- The plan creating `plainTool`, then `mixedTool`. -/
def mixedPlan : List Change :=
  [plainCreate,
   { Tool := mixedTool, ActionName := ActionCreate, Result := none, Description := [] }]

/-- The plan creating `plainTool`, then `refTool`, which refers to its
output `url`. -/
def pipePlan : List Change :=
  [plainCreate,
   { Tool := refTool, ActionName := ActionCreate, Result := none, Description := [] }]

/-- A change creating `refTool`. -/
def refCreate : Change :=
  { Tool := refTool, ActionName := ActionCreate, Result := none, Description := [] }

/-- The run of `pipePlan` after its first change: `plainTool` is created and
its State committed. -/
def pipeRunA : Run Nat MemState :=
  { world := 1
    smgr := { states := [("a_default".toList, plainState)], failWrites := false }
    errorsMap := []
    changes :=
      [{ Tool := plainTool, ActionName := ActionCreate, Description := []
         Result := some
           { Succeeded := true, Error := none, Time := "2022-01-01T00:00:00Z".toList,
             ReturnValue := urlOutputs } }]
    trace := [.pluginCreate plainTool, .addState "a_default".toList plainState none] }

/-- The tool `refTool` with its reference resolved to the output `url` of
the tool `a`. -/
def refToolResolved : Tool :=
  { refTool with Options := .cons "endpoint".toList (.str "https://x".toList) .nil }

/-- The run of `pipePlan` after its second change: `refTool` is created with
its reference resolved, and its State committed. -/
def pipeRunB : Run Nat MemState :=
  { world := 2
    smgr :=
      { states :=
          [("b_default".toList,
            { Name := refTool.Name, Plugin := refTool.Plugin,
              Options := refToolResolved.Options, Resource := urlOutputs }),
           ("a_default".toList, plainState)]
        failWrites := false }
    errorsMap := []
    changes := pipeRunA.changes ++
      [{ Tool := refToolResolved, ActionName := ActionCreate, Description := []
         Result := some
           { Succeeded := true, Error := none, Time := "2022-01-01T00:00:00Z".toList,
             ReturnValue := urlOutputs } }]
    trace := pipeRunA.trace ++
      [.pluginCreate refToolResolved,
       .addState "b_default".toList
         { Name := refTool.Name, Plugin := refTool.Plugin,
           Options := refToolResolved.Options, Resource := urlOutputs } none] }

/-- The struct `configloader.Config`. -/
structure Config where
  Tools : List Tool

/-- Modelled from the spec: the set of declared references of a Config,
`name + "." + instanceID` for every tool (section 4.1).  The package
`configloader` is not among the sources; only its test is. -/
def declaredRefs (cfg : Config) : List Str :=
  cfg.Tools.map (fun t => t.Name ++ ['.'] ++ t.InstanceID)

/-- Modelled from the spec: the error that names a missing dependency. -/
def missingDependencyError (d : Str) : Err :=
  "dependency ".toList ++ d ++ " does not exist in the config".toList

/-- Modelled from the spec: `Config.ValidateDependency` (section 4.1), which
is not among the sources.  For every tool and every entry of its
`DependsOn`, in order, an entry that is not in the set of declared
references appends an error naming it. -/
def ValidateDependency (cfg : Config) : List Err :=
  cfg.Tools.foldl
    (fun errors tool =>
      tool.DependsOn.foldl
        (fun errors dependency =>
          if dependency ∈ declaredRefs cfg then errors
          else errors ++ [missingDependencyError dependency])
        errors)
    []

/-- The entries of `DependsOn` that are not declared in the Config, tool by
tool in the order of the tools, each entry as often as it is listed. -/
def undeclaredEntries (cfg : Config) : List Tool → List Str
  | [] => []
  | t :: ts => t.DependsOn.filter (fun d => d ∉ declaredRefs cfg) ++ undeclaredEntries cfg ts

/-- A tool with a name, an instance and dependencies, without options. -/
def toolOf (name instanceID : String) (dependsOn : List String) : Tool :=
  { Name := name.toList
    InstanceID := instanceID.toList
    Plugin := { Kind := [], Version := [] }
    DependsOn := dependsOn.map String.toList
    Options := .nil }

/-- The Config of the test "singe dep". -/
def singleDepConfig : Config :=
  { Tools := [toolOf "argocd" "argocd" [], toolOf "argocdapp" "argocdapp" ["argocd.argocd"]] }

/-- The Config of the test "dep not exist". -/
def missingDepConfig : Config :=
  { Tools := [toolOf "argocdapp" "argocdapp" ["argocd.argocd"]] }

/-- The Config of the test "multi-dep". -/
def multiDepConfig : Config :=
  { Tools := [toolOf "argocd" "argocd" [], toolOf "github" "repo" [],
      toolOf "argocdapp" "argocdapp" ["argocd.argocd", "github.repo"]] }

/-- The Config of the test "empty dep". -/
def emptyDepConfig : Config :=
  { Tools := [toolOf "argocd" "argocd" [], toolOf "argocdapp" "argocdapp" []] }

mutual
/-- Whether a value is, or contains (in a map or a sequence, at any depth),
a string that starts with `${{` and ends with `}}`. -/
def Value.holdsRef : Value → Bool
  | .str s => isValidRefFormat s
  | .seq vs => vs.holdsRef
  | .map m => m.holdsRef
  | _ => false
/-- Whether an element of a sequence is or contains such a string. -/
def Values.holdsRef : Values → Bool
  | .nil => false
  | .cons v vs => v.holdsRef || vs.holdsRef
/-- Whether the value of an entry of a map is or contains such a string. -/
def Fields.holdsRef : Fields → Bool
  | .nil => false
  | .cons _ value rest => value.holdsRef || rest.holdsRef
end

/-- Whether the output value that the resolver substitutes for the wrapped
string leaf `s`, if it substitutes one, neither is nor contains a string
that starts with `${{` and ends with `}}`.  The value is looked up as
`fillRefValueWithOutputs` does. -/
def substitutesRefFree {M : Type} (S : Manager M) (smgr : M) (s : Str) : Bool :=
  let refParam := Split (getRefFormatString s) '.'
  if refParam.length ≤ 3 then true
  else
    match S.GetOutputs smgr (S.GenStateKey (refParam.getD NAME_SEGMENT_NUM [])
        (refParam.getD KIND_SEGMENT_NUM [])) with
    | .ok (.map outs) =>
      match outs.lookup (refParam.getD REF_SEGMENT_NUM []) with
      | some v => !v.holdsRef
      | none => true
    | _ => true

/-- Options with a reference inside a nested map, a number, a plain string
and a sequence. -/
def variedOptions : Fields :=
  .cons "server".toList
    (.map (.cons "endpoint".toList (.str "${{ a.default.outputs.url }}".toList)
      (.cons "port".toList (.int 8080) .nil)))
    (.cons "label".toList (.str "x-${{a.default.outputs.url}}-y".toList)
      (.cons "hosts".toList (.seq (.cons (.str "${{a.default.outputs.url}}".toList) .nil))
        .nil))

/-- The entries of one map followed by the entries of another: the map whose
`range` loop visits the entries of the first, then those of the second. -/
def Fields.append : Fields → Fields → Fields
  | .nil, r => r
  | .cons key value rest, r => .cons key value (rest.append r)

/-- The segments of the trimmed content of a wrapped string, as
`fillRefValueWithOutputs` splits it. -/
def refSegments (s : Str) : List Str :=
  Split (getRefFormatString s) '.'

/-- Options whose first leaf refers to the tool `a` and whose second leaf is
the malformed reference `${{x}}`. -/
def lateShortOptions : Fields :=
  .cons "p".toList (.str "${{a.default.outputs.url}}".toList)
    (.cons "q".toList (.str "${{x}}".toList) .nil)

/-! # Theorems -/

/-! ## The executor: one change -/

theorem succeededBeforeSwitch_eq (err : Option Err) : succeededBeforeSwitch err = false := by
  cases err <;> rfl

theorem handleResult_failed {M : Type} (S : Manager M) (smgr : M) (change : Change)
    (result : ChangeResult) (h : change.Result = some result) (hf : result.Succeeded = false) :
    handleResult S smgr change = some
      { smgr := smgr
        err := some ("the tool ".toList ++ change.Tool.Name ++ " (".toList ++
            change.Tool.Plugin.Kind ++ ") ".toList ++ change.ActionName ++ " failed".toList)
        calls := [] } := by
  unfold handleResult
  rw [h]
  simp [hf]

theorem handleResult_delete {M : Type} (S : Manager M) (smgr : M) (change : Change)
    (result : ChangeResult) (h : change.Result = some result) (hs : result.Succeeded = true)
    (ha : change.ActionName = ActionDelete) :
    handleResult S smgr change = some
      { smgr := (S.DeleteState smgr (S.StateKeyGenerateFunc change.Tool)).1
        err := (S.DeleteState smgr (S.StateKeyGenerateFunc change.Tool)).2
        calls := [.deleteState (S.StateKeyGenerateFunc change.Tool)
          (S.DeleteState smgr (S.StateKeyGenerateFunc change.Tool)).2] } := by
  unfold handleResult
  rw [h]
  simp only [hs, ha, Bool.not_true, Bool.false_eq_true, if_false, if_true]
  rcases hd : S.DeleteState smgr (S.StateKeyGenerateFunc change.Tool) with ⟨m', e⟩
  cases e <;> rfl

theorem handleResult_add {M : Type} (S : Manager M) (smgr : M) (change : Change)
    (result : ChangeResult) (h : change.Result = some result) (hs : result.Succeeded = true)
    (ha : change.ActionName ≠ ActionDelete) :
    handleResult S smgr change = some
      { smgr := (S.AddState smgr (S.StateKeyGenerateFunc change.Tool)
          ⟨change.Tool.Name, change.Tool.Plugin, change.Tool.Options, result.ReturnValue⟩).1
        err := (S.AddState smgr (S.StateKeyGenerateFunc change.Tool)
          ⟨change.Tool.Name, change.Tool.Plugin, change.Tool.Options, result.ReturnValue⟩).2
        calls := [.addState (S.StateKeyGenerateFunc change.Tool)
          ⟨change.Tool.Name, change.Tool.Plugin, change.Tool.Options, result.ReturnValue⟩
          (S.AddState smgr (S.StateKeyGenerateFunc change.Tool)
            ⟨change.Tool.Name, change.Tool.Plugin, change.Tool.Options, result.ReturnValue⟩).2] } := by
  unfold handleResult
  rw [h]
  simp only [hs, ha, Bool.not_true, Bool.false_eq_true, if_false]
  rcases hd : S.AddState smgr (S.StateKeyGenerateFunc change.Tool)
    ⟨change.Tool.Name, change.Tool.Plugin, change.Tool.Options, result.ReturnValue⟩ with ⟨m', e⟩
  cases e <;> rfl

theorem handleResult_some {M : Type} (S : Manager M) (smgr : M) (change : Change)
    (result : ChangeResult) (h : change.Result = some result) :
    ∃ out, handleResult S smgr change = some out := by
  cases hs : result.Succeeded
  · exact ⟨_, handleResult_failed S smgr change result h hs⟩
  · by_cases ha : change.ActionName = ActionDelete
    · exact ⟨_, handleResult_delete S smgr change result h hs ha⟩
    · exact ⟨_, handleResult_add S smgr change result h hs ha⟩

theorem executeStep_eq {W M : Type} (P : Plugins W) (S : Manager M) (r : Run W M) (c : Change) :
    ∃ h, handleResult S r.smgr (processed P S r c) = some h ∧
      executeStep P S r c = some
        { world := (stepDispatch P S r c).world
          smgr := h.smgr
          errorsMap := (r.errorsMap.record (errorKey c) (stepDispatch P S r c).err).record
            "handle-result".toList h.err
          changes := r.changes ++ [processed P S r c]
          trace := r.trace ++ (stepDispatch P S r c).calls ++ h.calls } := by
  obtain ⟨h, hh⟩ := handleResult_some S r.smgr (processed P S r c) _ rfl
  refine ⟨h, hh, ?_⟩
  unfold executeStep
  rw [hh]

theorem dispatch_calls {W : Type} (P : Plugins W) (world : W) (tool : Tool)
    (action : ComponentAction) (s : Bool) (e : Option Err) :
    (dispatch P world tool action s e).calls = pluginCallOf tool action := by
  unfold dispatch pluginCallOf
  split
  · split <;> rfl
  · split
    · split <;> rfl
    · split <;> rfl

theorem dispatch_err_cases {W : Type} (P : Plugins W) (world : W) (tool : Tool)
    (action : ComponentAction) (e : Option Err) :
    (dispatch P world tool action false e).succeeded = false ∨
      (dispatch P world tool action false e).err = none ∨ action = ActionDelete := by
  unfold dispatch
  split
  · split
    · exact Or.inr (Or.inl rfl)
    · exact Or.inl rfl
  · split
    · split
      · exact Or.inr (Or.inl rfl)
      · exact Or.inl rfl
    · split
      · rename_i h
        exact Or.inr (Or.inr h)
      · exact Or.inl rfl

theorem dispatch_create_update {W : Type} (P : Plugins W) (world : W) (tool : Tool)
    (action : ComponentAction) (e : Option Err)
    (ha : action = ActionCreate ∨ action = ActionUpdate) :
    ((dispatch P world tool action false e).succeeded = true ↔
      (dispatch P world tool action false e).err = none) := by
  have hcu : ActionUpdate ≠ ActionCreate := by decide
  unfold dispatch
  rcases ha with ha | ha
  · subst ha
    simp only [if_true]
    split <;> simp
  · subst ha
    simp only [hcu, if_false, if_true]
    split <;> simp

theorem ErrorsMap.set_ne_nil (m : ErrorsMap) (k : Str) (e : Err) : m.set k e ≠ [] := by
  cases m with
  | nil => simp [ErrorsMap.set]
  | cons p rest =>
    obtain ⟨k', e'⟩ := p
    unfold ErrorsMap.set
    split <;> simp

theorem ErrorsMap.hasKey_set (m : ErrorsMap) (k k' : Str) (e : Err) :
    (m.set k e).hasKey k' = (decide (k = k') || m.hasKey k') := by
  induction m with
  | nil => simp [ErrorsMap.set, ErrorsMap.hasKey]
  | cons p rest ih =>
    obtain ⟨k0, e0⟩ := p
    unfold ErrorsMap.set
    unfold ErrorsMap.hasKey at ih ⊢
    by_cases h : k0 = k
    · subst h
      by_cases h2 : k0 = k' <;> simp [h2]
    · simp only [h, if_false, List.any_cons, ih]
      by_cases h2 : k0 = k' <;> by_cases h3 : k = k' <;> simp [h2, h3]

theorem ErrorsMap.hasKey_record (m : ErrorsMap) (k k' : Str) (e : Option Err) :
    (m.record k e).hasKey k' = ((e.isSome && decide (k = k')) || m.hasKey k') := by
  cases e with
  | none => simp [ErrorsMap.record]
  | some e => simp [ErrorsMap.record, ErrorsMap.hasKey_set]

theorem ErrorsMap.record_eq_nil (m : ErrorsMap) (k : Str) (e : Option Err)
    (h : m.record k e = []) : m = [] ∧ e = none := by
  cases e with
  | none => exact ⟨h, rfl⟩
  | some e => exact absurd h (ErrorsMap.set_ne_nil m k e)

/-- An invariant of the loop of `execute` that every iteration preserves holds
when the loop ends. -/
theorem executeLoop_invariant {W M : Type} (P : Plugins W) (S : Manager M)
    (Inv : Run W M → List Change → Prop)
    (hstep : ∀ r c cs r', Inv r (c :: cs) → executeStep P S r c = some r' → Inv r' cs) :
    ∀ (cs : List Change) (r r' : Run W M), Inv r cs → executeLoop P S r cs = some r' →
      Inv r' [] := by
  intro cs
  induction cs with
  | nil =>
    intro r r' hinv h
    simp only [executeLoop, Option.some.injEq] at h
    exact h ▸ hinv
  | cons c cs ih =>
    intro r r' hinv h
    unfold executeLoop at h
    cases hs : executeStep P S r c with
    | none => rw [hs] at h; cases h
    | some r1 =>
      rw [hs] at h
      exact ih r1 r' (hstep r c cs r1 hinv hs) h

theorem executeLoop_some {W M : Type} (P : Plugins W) (S : Manager M) :
    ∀ (cs : List Change) (r : Run W M), ∃ r', executeLoop P S r cs = some r' := by
  intro cs
  induction cs with
  | nil => intro r; exact ⟨r, rfl⟩
  | cons c cs ih =>
    intro r
    obtain ⟨h, _, hstep⟩ := executeStep_eq P S r c
    unfold executeLoop
    rw [hstep]
    exact ih _

/-! ## The concrete State Manager -/

theorem stateAt_withoutKey_other (l : List (Str × State)) (k k' : Str) (h : k' ≠ k) :
    stateAt k' (withoutKey k l) = stateAt k' l := by
  induction l with
  | nil => rfl
  | cons p rest ih =>
    obtain ⟨k0, s0⟩ := p
    by_cases hp : k0 = k
    · have hne : ¬ k0 = k' := fun h' => h (h'.symm.trans hp)
      simp only [withoutKey, stateAt, hp, if_true, ih]
      rw [if_neg (fun h' => h h'.symm)]
    · simp only [withoutKey, stateAt, hp, if_false, ih]

theorem stateAt_withoutKey_self (l : List (Str × State)) (k : Str) :
    stateAt k (withoutKey k l) = none := by
  induction l with
  | nil => rfl
  | cons p rest ih =>
    obtain ⟨k0, s0⟩ := p
    by_cases hp : k0 = k
    · simp only [withoutKey, hp, if_true, ih]
    · simp only [withoutKey, stateAt, hp, if_false, ih]

theorem memManager_lawful : memManager.Lawful := by
  constructor
  · intro m k s h
    simp only [memManager] at h ⊢
    by_cases hf : m.failWrites = true
    · simp only [hf, if_true] at h
      cases h
    · simp only [hf, Bool.false_eq_true, if_false, stateAt, if_true]
  · intro m k s k' h hk
    simp only [memManager] at h ⊢
    by_cases hf : m.failWrites = true
    · simp only [hf, if_true] at h
      cases h
    · simp only [hf, Bool.false_eq_true, if_false, stateAt, Ne.symm hk, stateAt_withoutKey_other _ _ _ hk]
  · intro m k h
    simp only [memManager] at h ⊢
    by_cases hf : m.failWrites = true
    · simp only [hf, if_true] at h
      cases h
    · simp only [hf, Bool.false_eq_true, if_false, stateAt_withoutKey_self]
  · intro m k k' h hk
    simp only [memManager] at h ⊢
    by_cases hf : m.failWrites = true
    · simp only [hf, if_true] at h
      cases h
    · simp only [hf, Bool.false_eq_true, if_false, stateAt_withoutKey_other _ _ _ hk]
  · intro m k s h
    simp only [memManager] at h ⊢
    rw [h]
  · intro m k h
    simp only [memManager] at h ⊢
    rw [h]
    exact ⟨_, rfl⟩

/-! ## Claims about one change -/

/-- C1 (defect in the code): `execute` dispatches the plugin although the
resolver returned an error.  For the plan that creates `refTool` against an
empty State Manager the resolver fails (no State for `a_default`), yet
`Create` is called, the change ends with `Succeeded = true` and a nil
`Error`, its State is committed with the unresolved options, and the error
map is empty. -/
theorem C1_execute_dispatches_after_resolver_error :
    (fillRefValueWithOutputs memManager emptyMem refTool.Options).2 =
        some "cannot find state by key: a_default".toList ∧
      execute okPlugins memManager 0 emptyMem refPlan = some
        { world := 1
          smgr :=
            { states := [("b_default".toList,
                { Name := refTool.Name, Plugin := refTool.Plugin, Options := refTool.Options,
                  Resource := urlOutputs })]
              failWrites := false }
          errorsMap := []
          changes := [{ Tool := refTool, ActionName := ActionCreate, Description := []
                        Result := some
                          { Succeeded := true, Error := none,
                            Time := "2022-01-01T00:00:00Z".toList, ReturnValue := urlOutputs } }]
          trace := [.pluginCreate refTool,
            .addState "b_default".toList
              { Name := refTool.Name, Plugin := refTool.Plugin, Options := refTool.Options,
                Resource := urlOutputs } none] } := by
  constructor <;> rfl

theorem pluginCallOf_isPluginCall (tool : Tool) (action : ComponentAction) :
    ∀ ev ∈ pluginCallOf tool action, ev.isPluginCall = true := by
  intro ev hev
  unfold pluginCallOf at hev
  split at hev
  · simp only [List.mem_singleton] at hev; subst hev; rfl
  · split at hev
    · simp only [List.mem_singleton] at hev; subst hev; rfl
    · split at hev
      · simp only [List.mem_singleton] at hev; subst hev; rfl
      · simp at hev

/-- C2: a change whose `Result.Succeeded` is false leaves the State Manager
as it was.  `handleResult` returns an error without calling `AddState` or
`DeleteState`, for every State Manager state; and an iteration of `execute`
that leaves the change with such a result ends with the State Manager it
started with, so every entry of the State map is unchanged, the calls made
in the iteration being plugin calls only. -/
theorem C2_failed_change_leaves_state {W M : Type} (P : Plugins W) (S : Manager M) (smgr : M)
    (change : Change) (result : ChangeResult) (hres : change.Result = some result)
    (hfail : result.Succeeded = false) :
    (∃ e, handleResult S smgr change = some { smgr := smgr, err := some e, calls := [] }) ∧
      ∀ (r r' : Run W M) (c : Change), processed P S r c = change →
        executeStep P S r c = some r' →
          r'.smgr = r.smgr ∧ (∀ k, S.GetState r'.smgr k = S.GetState r.smgr k) ∧
            ∃ calls, r'.trace = r.trace ++ calls ∧
              ∀ ev ∈ calls, ev.isPluginCall = true ∧ ev.isAddState = false ∧
                ev.isDeleteState = false := by
  refine ⟨⟨_, handleResult_failed S smgr change result hres hfail⟩, ?_⟩
  intro r r' c hc hstep
  obtain ⟨h, hh, heq⟩ := executeStep_eq P S r c
  rw [heq] at hstep
  rw [hc, handleResult_failed S r.smgr change result hres hfail] at hh
  simp only [Option.some.injEq] at hh hstep
  subst hh
  subst hstep
  refine ⟨rfl, fun _ => rfl, (stepDispatch P S r c).calls, ?_, ?_⟩
  · simp
  · intro ev hev
    have hp : ev.isPluginCall = true := by
      unfold stepDispatch at hev
      rw [dispatch_calls] at hev
      exact pluginCallOf_isPluginCall _ _ ev hev
    cases ev <;> simp_all [Event.isPluginCall, Event.isAddState, Event.isDeleteState]

/-- C2 at a concrete input: a `Create` of `plainTool` that the plugin refuses. -/
theorem C2_failed_change_leaves_state_witness :
    (processed failingPlugins memManager (startRun plainMem) plainCreate).Result =
        some { Succeeded := false, Error := some "boom".toList,
               Time := "2022-01-01T00:00:00Z".toList, ReturnValue := .nil } ∧
      (∀ r' : Run Nat MemState,
        executeStep failingPlugins memManager (startRun plainMem) plainCreate = some r' →
          r'.smgr = plainMem) :=
  ⟨rfl, fun r' h =>
    ((C2_failed_change_leaves_state failingPlugins memManager plainMem
      (processed failingPlugins memManager (startRun plainMem) plainCreate) _ rfl rfl).2
        (startRun plainMem) r' plainCreate rfl h).1⟩

/-- C3: a `Create` or `Update` change that succeeds and whose `AddState`
returns no error leaves, under `StateKeyGenerateFunc` of its tool, exactly
the State made of the tool's `Name` and `Plugin`, its options as the
resolver left them, and the plugin's return value; what was under the key
before does not matter.  The calls of the iteration are the plugin call and
that one `AddState`. -/
theorem C3_create_update_commits_state {W M : Type} (P : Plugins W) (S : Manager M)
    (hlaw : S.Lawful) (r r' : Run W M) (c : Change) (result : ChangeResult)
    (hact : c.ActionName = ActionCreate ∨ c.ActionName = ActionUpdate)
    (hstep : executeStep P S r c = some r')
    (hres : (processed P S r c).Result = some result)
    (hsucc : result.Succeeded = true)
    (hadd : (S.AddState r.smgr (S.StateKeyGenerateFunc (resolvedTool S r.smgr c))
      { Name := c.Tool.Name
        Plugin := c.Tool.Plugin
        Options := (fillRefValueWithOutputs S r.smgr c.Tool.Options).1
        Resource := result.ReturnValue }).2 = none) :
    S.GetState r'.smgr (S.StateKeyGenerateFunc (resolvedTool S r.smgr c)) = some
        { Name := c.Tool.Name
          Plugin := c.Tool.Plugin
          Options := (fillRefValueWithOutputs S r.smgr c.Tool.Options).1
          Resource := result.ReturnValue } ∧
      r'.trace = r.trace ++ pluginCallOf (resolvedTool S r.smgr c) c.ActionName ++
        [.addState (S.StateKeyGenerateFunc (resolvedTool S r.smgr c))
          { Name := c.Tool.Name
            Plugin := c.Tool.Plugin
            Options := (fillRefValueWithOutputs S r.smgr c.Tool.Options).1
            Resource := result.ReturnValue } none] := by
  have hnd : (processed P S r c).ActionName ≠ ActionDelete := by
    show c.ActionName ≠ ActionDelete
    rcases hact with h | h <;> rw [h] <;> decide
  obtain ⟨h, hh, heq⟩ := executeStep_eq P S r c
  rw [heq] at hstep
  rw [handleResult_add S r.smgr (processed P S r c) result hres hsucc hnd] at hh
  simp only [Option.some.injEq] at hh hstep
  subst hh
  subst hstep
  constructor
  · exact hlaw.getState_addState _ _ _ hadd
  · show r.trace ++ (stepDispatch P S r c).calls ++ _ = _
    unfold stepDispatch
    rw [dispatch_calls]
    show r.trace ++ pluginCallOf (resolvedTool S r.smgr c) c.ActionName ++
      [Event.addState (S.StateKeyGenerateFunc (resolvedTool S r.smgr c))
        { Name := c.Tool.Name
          Plugin := c.Tool.Plugin
          Options := (fillRefValueWithOutputs S r.smgr c.Tool.Options).1
          Resource := result.ReturnValue }
        (S.AddState r.smgr (S.StateKeyGenerateFunc (resolvedTool S r.smgr c))
          { Name := c.Tool.Name
            Plugin := c.Tool.Plugin
            Options := (fillRefValueWithOutputs S r.smgr c.Tool.Options).1
            Resource := result.ReturnValue }).2] = _
    rw [hadd]

/-- C3 at a concrete input: `plainTool` created by `okPlugins` against an
empty State Manager. -/
theorem C3_create_update_commits_state_witness :
    memManager.GetState
        { states := [("a_default".toList, plainState)], failWrites := false }
        "a_default".toList = some plainState :=
  (C3_create_update_commits_state okPlugins memManager memManager_lawful (startRun emptyMem)
    { world := 1
      smgr := { states := [("a_default".toList, plainState)], failWrites := false }
      errorsMap := []
      changes := [processed okPlugins memManager (startRun emptyMem) plainCreate]
      trace := [.pluginCreate plainTool, .addState "a_default".toList plainState none] }
    plainCreate
    { Succeeded := true, Error := none, Time := "2022-01-01T00:00:00Z".toList,
      ReturnValue := urlOutputs }
    (Or.inl rfl) rfl rfl rfl rfl).1

/-- C4: a `Delete` change that succeeds and whose `DeleteState` returns no
error leaves no State under `StateKeyGenerateFunc` of its tool; the calls of
the iteration are the plugin's `Delete` and that one `DeleteState`, so no
`AddState` is made. -/
theorem C4_delete_removes_state {W M : Type} (P : Plugins W) (S : Manager M)
    (hlaw : S.Lawful) (r r' : Run W M) (c : Change) (result : ChangeResult)
    (hact : c.ActionName = ActionDelete)
    (hstep : executeStep P S r c = some r')
    (hres : (processed P S r c).Result = some result)
    (hsucc : result.Succeeded = true)
    (hdel : (S.DeleteState r.smgr (S.StateKeyGenerateFunc (resolvedTool S r.smgr c))).2 = none) :
    S.GetState r'.smgr (S.StateKeyGenerateFunc (resolvedTool S r.smgr c)) = none ∧
      r'.trace = r.trace ++
        [.pluginDelete (resolvedTool S r.smgr c),
         .deleteState (S.StateKeyGenerateFunc (resolvedTool S r.smgr c)) none] ∧
      ∀ ev ∈ r'.trace.drop r.trace.length, ev.isAddState = false := by
  have hd : (processed P S r c).ActionName = ActionDelete := hact
  obtain ⟨h, hh, heq⟩ := executeStep_eq P S r c
  rw [heq] at hstep
  rw [handleResult_delete S r.smgr (processed P S r c) result hres hsucc hd] at hh
  simp only [Option.some.injEq] at hh hstep
  subst hh
  subst hstep
  have htrace : r.trace ++ (stepDispatch P S r c).calls ++
      [Event.deleteState (S.StateKeyGenerateFunc (processed P S r c).Tool)
        (S.DeleteState r.smgr (S.StateKeyGenerateFunc (processed P S r c).Tool)).2] =
      r.trace ++ [.pluginDelete (resolvedTool S r.smgr c),
         .deleteState (S.StateKeyGenerateFunc (resolvedTool S r.smgr c)) none] := by
    unfold stepDispatch
    rw [dispatch_calls, hact]
    show r.trace ++ [Event.pluginDelete (resolvedTool S r.smgr c)] ++
      [Event.deleteState (S.StateKeyGenerateFunc (resolvedTool S r.smgr c))
        (S.DeleteState r.smgr (S.StateKeyGenerateFunc (resolvedTool S r.smgr c))).2] = _
    rw [hdel]
    simp
  refine ⟨hlaw.getState_deleteState _ _ hdel, htrace, ?_⟩
  show ∀ ev ∈ List.drop r.trace.length (r.trace ++ (stepDispatch P S r c).calls ++ _), _
  rw [htrace]
  intro ev hev
  simp only [List.drop_left, List.mem_cons, List.mem_singleton, List.not_mem_nil, or_false] at hev
  rcases hev with h | h <;> subst h <;> rfl

/-- C4 at a concrete input: `plainTool` deleted by `okPlugins` from a State
Manager that holds its State. -/
theorem C4_delete_removes_state_witness :
    memManager.GetState emptyMem "a_default".toList = none :=
  (C4_delete_removes_state okPlugins memManager memManager_lawful (startRun plainMem)
    { world := 1
      smgr := emptyMem
      errorsMap := []
      changes := [processed okPlugins memManager (startRun plainMem) plainDelete]
      trace := [.pluginDelete plainTool, .deleteState "a_default".toList none] }
    plainDelete
    { Succeeded := true, Error := none, Time := "2022-01-01T00:00:00Z".toList,
      ReturnValue := .nil }
    rfl rfl rfl rfl rfl).1

/-! ## The executor: the loop -/

theorem errorKey_delete_ne (c : Change) (h : c.ActionName = ActionDelete) :
    errorKey c ≠ handleResultKey := by
  intro heq
  have := congrArg List.reverse heq
  unfold errorKey handleResultKey at this
  rw [h] at this
  simp [ActionDelete] at this

theorem isCommitError_of_isPluginCall (ev : Event) (h : ev.isPluginCall = true) :
    ev.isCommitError = false := by
  cases ev <;> simp_all [Event.isPluginCall, Event.isCommitError]

/-- What one iteration of `execute` does to the run. -/
theorem executeStep_cases {W M : Type} (P : Plugins W) (S : Manager M) (r r' : Run W M)
    (c : Change) (hstep : executeStep P S r c = some r') :
    r'.changes = r.changes ++ [processed P S r c] ∧
      ∃ herr commits,
        r'.errorsMap = (r.errorsMap.record (errorKey c) (stepDispatch P S r c).err).record
          handleResultKey herr ∧
        r'.trace = r.trace ++ pluginCallOf (resolvedTool S r.smgr c) c.ActionName ++ commits ∧
        (((stepDispatch P S r c).succeeded = false ∧ herr.isSome = true ∧ commits = []) ∨
          ((stepDispatch P S r c).succeeded = true ∧
            ((stepDispatch P S r c).err = none ∨ c.ActionName = ActionDelete) ∧
            ∃ ev, commits = [ev] ∧ ev.isPluginCall = false ∧
              ev.isCommitError = herr.isSome)) := by
  obtain ⟨h, hh, heq⟩ := executeStep_eq P S r c
  rw [heq] at hstep
  simp only [Option.some.injEq] at hstep
  subst hstep
  refine ⟨rfl, h.err, h.calls, rfl, ?_, ?_⟩
  · show r.trace ++ (stepDispatch P S r c).calls ++ h.calls = _
    unfold stepDispatch
    rw [dispatch_calls]
  · cases hs : (stepDispatch P S r c).succeeded with
    | false =>
      rw [handleResult_failed S r.smgr (processed P S r c) _ rfl hs] at hh
      simp only [Option.some.injEq] at hh
      subst hh
      exact Or.inl ⟨rfl, rfl, rfl⟩
    | true =>
      right
      refine ⟨rfl, ?_, ?_⟩
      · have := dispatch_err_cases P r.world (resolvedTool S r.smgr c) c.ActionName
          (fillRefValueWithOutputs S r.smgr c.Tool.Options).2
        unfold stepDispatch at hs ⊢
        rw [succeededBeforeSwitch_eq] at hs ⊢
        rcases this with h1 | h1 | h1
        · rw [h1] at hs; cases hs
        · exact Or.inl h1
        · exact Or.inr h1
      · by_cases ha : c.ActionName = ActionDelete
        · rw [handleResult_delete S r.smgr (processed P S r c) _ rfl hs ha] at hh
          simp only [Option.some.injEq] at hh
          subst hh
          refine ⟨_, rfl, rfl, ?_⟩
          cases (S.DeleteState r.smgr (S.StateKeyGenerateFunc (processed P S r c).Tool)).2 <;> rfl
        · rw [handleResult_add S r.smgr (processed P S r c) _ rfl hs ha] at hh
          simp only [Option.some.injEq] at hh
          subst hh
          refine ⟨_, rfl, rfl, ?_⟩
          generalize (S.AddState _ _ _).2 = e
          cases e <;> rfl

theorem isProcessed_processed {W M : Type} (P : Plugins W) (S : Manager M) (r : Run W M)
    (c : Change) : IsProcessed c (processed P S r c) :=
  ⟨rfl, rfl, rfl, rfl, rfl, rfl, by simp [processed]⟩

theorem expectedCalls_append (l : List Change) (c : Change) :
    expectedCalls (l ++ [c]) = expectedCalls l ++ pluginCallOf c.Tool c.ActionName := by
  induction l with
  | nil => simp [expectedCalls]
  | cons a l ih => simp [expectedCalls, ih]

theorem execute_some {W M : Type} (P : Plugins W) (S : Manager M) (world : W) (smgr : M)
    (plan : List Change) : ∃ r, execute P S world smgr plan = some r :=
  executeLoop_some P S plan _

theorem forall₂_mem_right {α β : Type} {R : α → β → Prop} {l₁ : List α} {l₂ : List β}
    (h : List.Forall₂ R l₁ l₂) : ∀ b ∈ l₂, ∃ a ∈ l₁, R a b := by
  induction h with
  | nil => intro b hb; cases hb
  | cons hab _ ih =>
    intro b hb
    rcases List.mem_cons.mp hb with hb | hb
    · subst hb
      exact ⟨_, List.mem_cons_self _ _, hab⟩
    · obtain ⟨a, ha, hr⟩ := ih b hb
      exact ⟨a, List.mem_cons_of_mem _ ha, hr⟩

theorem execute_isProcessed {W M : Type} (P : Plugins W) (S : Manager M) (world : W)
    (smgr : M) (plan : List Change) (r : Run W M) (hr : execute P S world smgr plan = some r) :
    List.Forall₂ IsProcessed plan r.changes := by
  have key := executeLoop_invariant P S
    (fun r cs => ∃ done, plan = done ++ cs ∧ List.Forall₂ IsProcessed done r.changes)
    (by
      intro r c cs r' hinv hstep
      obtain ⟨done, hplan, hdone⟩ := hinv
      obtain ⟨hch, _⟩ := executeStep_cases P S r r' c hstep
      refine ⟨done ++ [c], by simp [hplan], ?_⟩
      rw [hch]
      exact List.rel_append hdone
        (List.Forall₂.cons (isProcessed_processed P S r c) List.Forall₂.nil))
    plan _ r ⟨[], rfl, List.Forall₂.nil⟩ hr
  obtain ⟨done, hplan, hdone⟩ := key
  simp only [List.append_nil] at hplan
  exact hplan ▸ hdone

/-! ## Claims about the error map and the whole plan -/

/-- C7 as stated fails: a `Delete` whose plugin returns `(false, nil)` ends
with `Succeeded = false`, and the error map holds the key `handle-result`
only, not `a-Delete`. -/
theorem C7_counterexample_delete_refused :
    execute refusingPlugins memManager 0 plainMem deletePlan = some
        { world := 1
          smgr := plainMem
          errorsMap := [("handle-result".toList, "the tool a (akind) Delete failed".toList)]
          changes := [{ Tool := plainTool, ActionName := ActionDelete, Description := []
                        Result := some
                          { Succeeded := false, Error := none,
                            Time := "2022-01-01T00:00:00Z".toList, ReturnValue := .nil } }]
          trace := [.pluginDelete plainTool] } ∧
      errorKey plainDelete = "a-Delete".toList ∧
      ErrorsMap.hasKey [("handle-result".toList, "the tool a (akind) Delete failed".toList)]
        (errorKey plainDelete) = false := by
  refine ⟨rfl, rfl, ?_⟩
  decide

/-- C7, amended: after `execute` returns, the error map has the key
`<Tool.Name>-<ActionName>` of every change whose `Result.Error` is not nil,
and the key `handle-result` whenever some change has `Result.Succeeded`
false. -/
theorem C7_failed_change_reported {W M : Type} (P : Plugins W) (S : Manager M) (world : W)
    (smgr : M) (plan : List Change) :
    ∃ r, execute P S world smgr plan = some r ∧
      List.Forall₂ IsProcessed plan r.changes ∧
      ∀ c ∈ r.changes, ∀ res, c.Result = some res →
        (res.Error ≠ none → r.errorsMap.hasKey (errorKey c) = true) ∧
        (res.Succeeded = false → r.errorsMap.hasKey handleResultKey = true) := by
  obtain ⟨r, hr⟩ := execute_some P S world smgr plan
  refine ⟨r, hr, execute_isProcessed P S world smgr plan r hr, ?_⟩
  exact executeLoop_invariant P S
    (fun r _ => ∀ c ∈ r.changes, ∀ res, c.Result = some res →
        (res.Error ≠ none → r.errorsMap.hasKey (errorKey c) = true) ∧
        (res.Succeeded = false → r.errorsMap.hasKey handleResultKey = true))
    (by
      intro r c cs r' hinv hstep
      obtain ⟨hch, herr, commits, hmap, _, hcase⟩ := executeStep_cases P S r r' c hstep
      intro c' hc' res hres
      rw [hch, List.mem_append, List.mem_singleton] at hc'
      rw [hmap]
      simp only [ErrorsMap.hasKey_record]
      rcases hc' with hc' | hc'
      · obtain ⟨h1, h2⟩ := hinv c' hc' res hres
        refine ⟨fun h => ?_, fun h => ?_⟩
        · simp [h1 h]
        · simp [h2 h]
      · have hkey : errorKey c' = errorKey c := by rw [hc']; rfl
        have hres2 : res.Error = (stepDispatch P S r c).err ∧
            res.Succeeded = (stepDispatch P S r c).succeeded := by
          rw [hc'] at hres
          simp only [processed, Option.some.injEq] at hres
          rw [← hres]
          exact ⟨rfl, rfl⟩
        rw [hkey, hres2.1, hres2.2]
        refine ⟨fun h => ?_, fun h => ?_⟩
        · cases he : (stepDispatch P S r c).err with
          | none => exact absurd he h
          | some e => simp
        · rcases hcase with ⟨_, h1, _⟩ | ⟨h1, _⟩
          · simp [h1]
          · rw [h] at h1
            cases h1)
    plan _ r (by simp) hr

/-- C8: when `execute` returns an empty error map, every change of the plan
has `Result.Succeeded = true` and a nil `Result.Error`, and no `AddState`
or `DeleteState` call of the run returned an error. -/
theorem C8_empty_error_map_total_success {W M : Type} (P : Plugins W) (S : Manager M)
    (world : W) (smgr : M) (plan : List Change) (r : Run W M)
    (hr : execute P S world smgr plan = some r) (hempty : r.errorsMap = []) :
    List.Forall₂ IsProcessed plan r.changes ∧
      (∀ c ∈ r.changes, ∃ res, c.Result = some res ∧ res.Succeeded = true ∧
        res.Error = none) ∧
      ∀ ev ∈ r.trace, ev.isCommitError = false := by
  refine ⟨execute_isProcessed P S world smgr plan r hr, ?_⟩
  exact executeLoop_invariant P S
    (fun r _ => r.errorsMap = [] →
      (∀ c ∈ r.changes, ∃ res, c.Result = some res ∧ res.Succeeded = true ∧
        res.Error = none) ∧
      ∀ ev ∈ r.trace, ev.isCommitError = false)
    (by
      intro r c cs r' hinv hstep hnil
      obtain ⟨hch, herr, commits, hmap, htr, hcase⟩ := executeStep_cases P S r r' c hstep
      rw [hmap] at hnil
      obtain ⟨hnil1, hherr⟩ := ErrorsMap.record_eq_nil _ _ _ hnil
      obtain ⟨hnil0, herr0⟩ := ErrorsMap.record_eq_nil _ _ _ hnil1
      obtain ⟨hold1, hold2⟩ := hinv hnil0
      subst hherr
      rcases hcase with ⟨_, h1, _⟩ | ⟨hs, _, ev, hev, _, hce⟩
      · cases h1
      · constructor
        · intro c' hc'
          rw [hch, List.mem_append, List.mem_singleton] at hc'
          rcases hc' with hc' | hc'
          · exact hold1 c' hc'
          · subst hc'
            exact ⟨_, rfl, hs, herr0⟩
        · intro e he
          rw [htr, List.mem_append, List.mem_append] at he
          rcases he with (he | he) | he
          · exact hold2 e he
          · exact isCommitError_of_isPluginCall e (pluginCallOf_isPluginCall _ _ e he)
          · rw [hev, List.mem_singleton] at he
            subst he
            exact hce)
    plan _ r (by intro _; simp) hr hempty

/-- C8 at a concrete input: the plan creating `plainTool` with `okPlugins`
against an empty State Manager. -/
theorem C8_empty_error_map_total_success_witness :
    (Event.addState "a_default".toList plainState none).isCommitError = false :=
  (C8_empty_error_map_total_success okPlugins memManager 0 emptyMem createPlan
    { world := 1
      smgr := { states := [("a_default".toList, plainState)], failWrites := false }
      errorsMap := []
      changes := [{ Tool := plainTool, ActionName := ActionCreate, Description := []
                    Result := some
                      { Succeeded := true, Error := none,
                        Time := "2022-01-01T00:00:00Z".toList, ReturnValue := urlOutputs } }]
      trace := [.pluginCreate plainTool, .addState "a_default".toList plainState none] }
    rfl rfl).2.2 _ (List.mem_cons_of_mem _ (List.mem_cons_self _ _))

/-- C9 as stated fails: a `Create` that the plugin refuses makes no
`AddState` or `DeleteState` call, and the error map holds `handle-result`
next to `a-Create`. -/
theorem C9_counterexample_failed_create :
    execute failingPlugins memManager 0 emptyMem createPlan = some
      { world := 1
        smgr := emptyMem
        errorsMap := [("a-Create".toList, "boom".toList),
          ("handle-result".toList, "the tool a (akind) Create failed".toList)]
        changes := [{ Tool := plainTool, ActionName := ActionCreate, Description := []
                      Result := some
                        { Succeeded := false, Error := some "boom".toList,
                          Time := "2022-01-01T00:00:00Z".toList, ReturnValue := .nil } }]
        trace := [.pluginCreate plainTool] } := by
  rfl

/-- C9, amended: the error map returned by `execute` has the key
`handle-result` exactly when some change ended with `Result.Succeeded`
false or some `AddState` or `DeleteState` call of the run returned an
error; a failed change is thus reported under `handle-result` too. -/
theorem C9_handle_result_key {W M : Type} (P : Plugins W) (S : Manager M) (world : W)
    (smgr : M) (plan : List Change) :
    ∃ r, execute P S world smgr plan = some r ∧
      (r.errorsMap.hasKey handleResultKey = true ↔
        (∃ c ∈ r.changes, ∃ res, c.Result = some res ∧ res.Succeeded = false) ∨
          ∃ ev ∈ r.trace, ev.isCommitError = true) := by
  obtain ⟨r, hr⟩ := execute_some P S world smgr plan
  refine ⟨r, hr, ?_⟩
  exact executeLoop_invariant P S
    (fun r _ => (r.errorsMap.hasKey handleResultKey = true ↔
        (∃ c ∈ r.changes, ∃ res, c.Result = some res ∧ res.Succeeded = false) ∨
          ∃ ev ∈ r.trace, ev.isCommitError = true))
    (by
      intro r c cs r' hinv hstep
      obtain ⟨hch, herr, commits, hmap, htr, hcase⟩ := executeStep_cases P S r r' c hstep
      have hplug : ∀ ev ∈ pluginCallOf (resolvedTool S r.smgr c) c.ActionName,
          ev.isCommitError = true → False := by
        intro ev hev h
        rw [isCommitError_of_isPluginCall ev (pluginCallOf_isPluginCall _ _ ev hev)] at h
        cases h
      rcases hcase with ⟨hs, h1, hc⟩ | ⟨hs, hed, ev, hev, _, hce⟩
      · subst hc
        rw [hmap, hch, htr]
        simp only [ErrorsMap.hasKey_record, Bool.or_eq_true, Bool.and_eq_true,
          decide_eq_true_eq, hinv, List.mem_append, List.mem_singleton]
        constructor
        · intro _
          exact Or.inl ⟨processed P S r c, Or.inr rfl, _, rfl, hs⟩
        · intro _
          exact Or.inl ⟨h1, trivial⟩
      · have hnokey : ¬ ((stepDispatch P S r c).err.isSome = true ∧
            errorKey c = handleResultKey) := by
          rintro ⟨h1, h2⟩
          rcases hed with hed | hed
          · rw [hed] at h1; cases h1
          · exact errorKey_delete_ne c hed h2
        subst hev
        rw [hmap, hch, htr]
        simp only [ErrorsMap.hasKey_record, Bool.or_eq_true, Bool.and_eq_true,
          decide_eq_true_eq, hinv, List.mem_append, List.mem_singleton]
        constructor
        · rintro (⟨h1, _⟩ | h | h | h)
          · exact Or.inr ⟨ev, Or.inr rfl, hce.trans h1⟩
          · exact absurd h hnokey
          · obtain ⟨c', hc', h⟩ := h
            exact Or.inl ⟨c', Or.inl hc', h⟩
          · obtain ⟨e, he, h⟩ := h
            exact Or.inr ⟨e, Or.inl (Or.inl he), h⟩
        · rintro (⟨c', hc' | hc', res, hres, hf⟩ | ⟨e, (he | he) | he, h⟩)
          · exact Or.inr (Or.inr (Or.inl ⟨c', hc', res, hres, hf⟩))
          · subst hc'
            simp only [processed, Option.some.injEq] at hres
            subst hres
            simp only at hf
            rw [hf] at hs
            cases hs
          · exact Or.inr (Or.inr (Or.inr ⟨e, he, h⟩))
          · exact absurd h (fun h => hplug e he h)
          · subst he
            exact Or.inl ⟨hce.symm.trans h, trivial⟩)
    plan _ r (by simp [ErrorsMap.hasKey]) hr

/-- C10: `execute` never stops early.  For every plan it returns, every
change of the plan has been processed, in plan order, and has a result, and
the plugin calls of the run are exactly one call per change whose action is
`Create`, `Update` or `Delete`, in plan order, each on the change's tool. -/
theorem C10_execute_processes_every_change {W M : Type} (P : Plugins W) (S : Manager M)
    (world : W) (smgr : M) (plan : List Change) :
    ∃ r, execute P S world smgr plan = some r ∧
      r.changes.length = plan.length ∧
      List.Forall₂ IsProcessed plan r.changes ∧
      (∀ c ∈ r.changes, c.Result ≠ none) ∧
      r.trace.filter Event.isPluginCall = expectedCalls r.changes := by
  obtain ⟨r, hr⟩ := execute_some P S world smgr plan
  have hproc := execute_isProcessed P S world smgr plan r hr
  refine ⟨r, hr, hproc.length_eq.symm, hproc, ?_, ?_⟩
  · intro c hc
    obtain ⟨c0, _, h⟩ := forall₂_mem_right hproc c hc
    exact h.2.2.2.2.2.2
  · exact executeLoop_invariant P S
      (fun r _ => r.trace.filter Event.isPluginCall = expectedCalls r.changes)
      (by
        intro r c cs r' hinv hstep
        obtain ⟨hch, herr, commits, _, htr, hcase⟩ := executeStep_cases P S r r' c hstep
        have hcalls : (pluginCallOf (resolvedTool S r.smgr c) c.ActionName).filter
            Event.isPluginCall = pluginCallOf (resolvedTool S r.smgr c) c.ActionName :=
          List.filter_eq_self.mpr (pluginCallOf_isPluginCall _ _)
        have hcommits : commits.filter Event.isPluginCall = [] := by
          rcases hcase with ⟨_, _, h⟩ | ⟨_, _, ev, h, hp, _⟩
          · rw [h]; rfl
          · rw [h]; simp [List.filter_cons, hp]
        rw [htr, hch, expectedCalls_append, List.filter_append, List.filter_append, hinv,
          hcalls, hcommits, List.append_nil]
        rfl)
      plan { world := world, smgr := smgr, errorsMap := [], changes := [], trace := [] } r
      rfl hr

/-! ## The reference resolver -/

/-- Induction over a map and the maps nested in it. -/
theorem Fields.induct_nested (motive : Fields → Prop) (hnil : motive .nil)
    (hmap : ∀ key sub rest, motive sub → motive rest → motive (.cons key (.map sub) rest))
    (hother : ∀ key value rest, (∀ sub, value ≠ .map sub) → motive rest →
      motive (.cons key value rest)) :
    ∀ o, motive o
  | .nil => hnil
  | .cons key (.map sub) rest =>
    hmap key sub rest (Fields.induct_nested motive hnil hmap hother sub)
      (Fields.induct_nested motive hnil hmap hother rest)
  | .cons key .null rest =>
    hother key _ rest (fun _ h => by cases h) (Fields.induct_nested motive hnil hmap hother rest)
  | .cons key (.bool _) rest =>
    hother key _ rest (fun _ h => by cases h) (Fields.induct_nested motive hnil hmap hother rest)
  | .cons key (.int _) rest =>
    hother key _ rest (fun _ h => by cases h) (Fields.induct_nested motive hnil hmap hother rest)
  | .cons key (.str _) rest =>
    hother key _ rest (fun _ h => by cases h) (Fields.induct_nested motive hnil hmap hother rest)
  | .cons key (.seq _) rest =>
    hother key _ rest (fun _ h => by cases h) (Fields.induct_nested motive hnil hmap hother rest)

/-- The resolver is its loop body run over the entries until the first error. -/
theorem fillRefValueWithOutputs_cons {M : Type} (S : Manager M) (smgr : M) (key : Str)
    (value : Value) (rest : Fields) :
    fillRefValueWithOutputs S smgr (.cons key value rest) =
      match (fillValue S smgr value).2 with
      | some err => (.cons key (fillValue S smgr value).1 rest, some err)
      | none => fillNext key (fillValue S smgr value).1 (fillRefValueWithOutputs S smgr rest) := by
  cases value with
  | str inst =>
    rw [fillRefValueWithOutputs]
    unfold fillValue
    simp only [Value.isNil, Bool.false_eq_true, if_false]
    by_cases hv : isValidRefFormat inst = true
    · by_cases hl : (Split (getRefFormatString inst) '.').length ≤ 3
      · simp only [hv, hl, if_true]
      · simp only [hv, hl, if_true, if_false]
        generalize S.GetOutputs smgr (S.GenStateKey _ _) = g
        cases g with
        | error e => rfl
        | ok out =>
          cases out with
          | map outs =>
            simp only []
            generalize Fields.lookup _ outs = l
            cases l <;> rfl
          | _ => rfl
    · simp only [hv, Bool.false_eq_true, if_false]
  | map sub =>
    rw [fillRefValueWithOutputs]
    simp only [fillValue]
    generalize fillRefValueWithOutputs S smgr sub = p
    obtain ⟨sub', e⟩ := p
    cases e <;> rfl
  | null => rfl
  | bool b => rfl
  | int n => rfl
  | seq vs => rfl

theorem fill_none_cons {M : Type} (S : Manager M) (smgr : M) (key : Str)
    (value : Value) (rest : Fields)
    (h : (fillRefValueWithOutputs S smgr (.cons key value rest)).2 = none) :
    (fillValue S smgr value).2 = none ∧ (fillRefValueWithOutputs S smgr rest).2 = none ∧
      (fillRefValueWithOutputs S smgr (.cons key value rest)).1 =
        .cons key (fillValue S smgr value).1 (fillRefValueWithOutputs S smgr rest).1 := by
  rw [fillRefValueWithOutputs_cons] at h ⊢
  cases hv : (fillValue S smgr value).2 with
  | some e => rw [hv] at h; cases h
  | none =>
    rw [hv] at h
    exact ⟨rfl, h, rfl⟩

theorem fill_cons_of_none {M : Type} (S : Manager M) (smgr : M) (key : Str)
    (value : Value) (rest : Fields) (hv : (fillValue S smgr value).2 = none)
    (hr : (fillRefValueWithOutputs S smgr rest).2 = none) :
    (fillRefValueWithOutputs S smgr (.cons key value rest)).2 = none := by
  rw [fillRefValueWithOutputs_cons, hv]
  exact hr

/-- When the resolver returns no error, the entry under a key holds what the
loop body made of its value. -/
theorem fill_lookup {M : Type} (S : Manager M) (smgr : M) (k : Str) (v : Value) :
    ∀ o : Fields, (fillRefValueWithOutputs S smgr o).2 = none → o.lookup k = some v →
      (fillValue S smgr v).2 = none ∧
        (fillRefValueWithOutputs S smgr o).1.lookup k = some (fillValue S smgr v).1
  | .nil => fun _ h => by cases h
  | .cons key value rest => fun hnone hl => by
    obtain ⟨h1, h2, h3⟩ := fill_none_cons S smgr key value rest hnone
    rw [h3]
    unfold Fields.lookup at hl ⊢
    by_cases hk : key = k
    · simp only [hk, if_true, Option.some.injEq] at hl ⊢
      subst hl
      exact ⟨h1, rfl⟩
    · simp only [hk, if_false] at hl ⊢
      exact fill_lookup S smgr k v rest h2 hl

/-- When the resolver returns no error, the leaf at a path holds what the loop
body made of its value. -/
theorem fill_getPath {M : Type} (S : Manager M) (smgr : M) (v : Value) :
    ∀ (path : List Str) (o : Fields), (fillRefValueWithOutputs S smgr o).2 = none →
      o.getPath path = some v →
      (fillValue S smgr v).2 = none ∧
        (fillRefValueWithOutputs S smgr o).1.getPath path = some (fillValue S smgr v).1
  | [], _ => fun _ h => by simp [Fields.getPath] at h
  | [k], o => fun hnone h => by
    simp only [Fields.getPath] at h ⊢
    exact fill_lookup S smgr k v o hnone h
  | k :: k2 :: p, o => fun hnone h => by
    simp only [Fields.getPath] at h ⊢
    cases hl : o.lookup k with
    | none => rw [hl] at h; cases h
    | some w =>
      rw [hl] at h
      cases w with
      | map m =>
        simp only at h
        obtain ⟨h1, h2⟩ := fill_lookup S smgr k (.map m) o hnone hl
        rw [h2]
        simp only [fillValue] at h1 ⊢
        exact fill_getPath S smgr v (k2 :: p) m h1 h
      | _ => cases h

/-! ## Reference strings -/

theorem HasPrefix_append (p x : Str) : HasPrefix (p ++ x) p = true := by
  induction p with
  | nil => cases x <;> rfl
  | cons c p ih => simp [HasPrefix, ih]

theorem HasSuffix_append (x s : Str) : HasSuffix (x ++ s) s = true := by
  unfold HasSuffix
  rw [List.reverse_append]
  exact HasPrefix_append _ _

theorem TrimPrefix_append (p x : Str) : TrimPrefix (p ++ x) p = x := by
  unfold TrimPrefix
  rw [HasPrefix_append]
  simp

theorem TrimSuffix_append (x s : Str) : TrimSuffix (x ++ s) s = x := by
  unfold TrimSuffix
  rw [HasSuffix_append]
  simp

theorem dropWhile_space_append (ws x : Str) (h : ∀ c ∈ ws, isSpace c = true) :
    (ws ++ x).dropWhile isSpace = x.dropWhile isSpace := by
  induction ws with
  | nil => rfl
  | cons c ws ih =>
    have hc := h c (List.mem_cons_self _ _)
    simp only [List.cons_append, List.dropWhile_cons, hc, if_true]
    exact ih (fun d hd => h d (List.mem_cons_of_mem _ hd))

theorem dropWhile_of_head (x : Str) (h : ∀ c, x.head? = some c → isSpace c = false) :
    x.dropWhile isSpace = x := by
  cases x with
  | nil => rfl
  | cons c x =>
    have hc := h c rfl
    simp [List.dropWhile_cons, hc]

theorem TrimSpace_spaced (ws1 x ws2 : Str) (h1 : ∀ c ∈ ws1, isSpace c = true)
    (h2 : ∀ c ∈ ws2, isSpace c = true)
    (hhead : ∀ c, x.head? = some c → isSpace c = false)
    (hlast : ∀ c, x.getLast? = some c → isSpace c = false) (hx : x ≠ []) :
    TrimSpace (ws1 ++ x ++ ws2) = x := by
  unfold TrimSpace
  rw [List.append_assoc, dropWhile_space_append _ _ h1]
  have hne : (x ++ ws2).dropWhile isSpace = x ++ ws2 := by
    cases x with
    | nil => exact absurd rfl hx
    | cons c x =>
      have hc := hhead c rfl
      simp [List.dropWhile_cons, hc]
  rw [hne, List.reverse_append,
    dropWhile_space_append _ _ (fun c hc => h2 c (List.mem_reverse.mp hc)),
    dropWhile_of_head _ (fun c hc => hlast c (by rwa [List.head?_reverse] at hc)),
    List.reverse_reverse]

theorem Split_append_sep (a rest : Str) (sep : Char) (h : sep ∉ a) :
    Split (a ++ sep :: rest) sep = a :: Split rest sep := by
  induction a with
  | nil => simp [Split]
  | cons c a ih =>
    have hc : c ≠ sep := fun e => h (e ▸ List.mem_cons_self _ _)
    have ha : sep ∉ a := fun e => h (List.mem_cons_of_mem _ e)
    show Split (c :: (a ++ sep :: rest)) sep = _
    rw [Split]
    simp only [hc, if_false]
    rw [ih ha]

theorem Split_no_sep (k : Str) (sep : Char) (h : sep ∉ k) : Split k sep = [k] := by
  induction k with
  | nil => rfl
  | cons c k ih =>
    have hc : c ≠ sep := fun e => h (e ▸ List.mem_cons_self _ _)
    have hk : sep ∉ k := fun e => h (List.mem_cons_of_mem _ e)
    simp only [Split, hc, if_false, ih hk]

theorem Split_refContent (a b k : Str) (ha : '.' ∉ a) (hb : '.' ∉ b) (hk : '.' ∉ k) :
    Split (refContent a b k) '.' = [a, b, "outputs".toList, k] := by
  have ho : '.' ∉ "outputs".toList := by decide
  unfold refContent
  simp only [List.append_assoc, List.singleton_append, List.cons_append, List.nil_append]
  rw [Split_append_sep _ _ _ ha, Split_append_sep _ _ _ hb, Split_append_sep _ _ _ ho,
    Split_no_sep _ _ hk]

theorem isValidRefFormat_refString (ws1 a b k ws2 : Str) :
    isValidRefFormat (refString ws1 a b k ws2) = true := by
  unfold isValidRefFormat refString
  rw [HasSuffix_append]
  simp only [List.append_assoc]
  rw [HasPrefix_append]
  rfl

theorem getRefFormatString_refString (ws1 a b k ws2 : Str) (h : IsRefShape ws1 a b k ws2) :
    getRefFormatString (refString ws1 a b k ws2) = refContent a b k := by
  unfold getRefFormatString refString
  have e : REF_PREFIX ++ ws1 ++ refContent a b k ++ ws2 ++ REF_SUFFIX =
      REF_PREFIX ++ (ws1 ++ refContent a b k ++ ws2 ++ REF_SUFFIX) := by
    simp only [List.append_assoc]
  rw [e, TrimPrefix_append, TrimSuffix_append]
  apply TrimSpace_spaced _ _ _ h.ws1_space h.ws2_space
  · intro c hc
    cases a with
    | nil =>
      simp only [refContent, List.nil_append, List.singleton_append, List.cons_append,
        List.head?_cons, Option.some.injEq] at hc
      subst hc
      decide
    | cons d a =>
      simp only [refContent, List.cons_append, List.head?_cons, Option.some.injEq] at hc
      exact h.a_head c (by simp [hc])
  · intro c hc
    unfold refContent at hc
    rw [List.getLast?_append] at hc
    cases hk : k.getLast? with
    | none =>
      rw [hk, List.getLast?_concat] at hc
      simp only [Option.or, Option.some.injEq] at hc
      subst hc
      decide
    | some d =>
      rw [hk] at hc
      simp only [Option.or, Option.some.injEq] at hc
      subst hc
      exact h.k_last _ hk
  · simp [refContent]

theorem fillValue_refString {M : Type} (S : Manager M) (smgr : M) (ws1 a b k ws2 : Str)
    (outs : Fields) (v : Value) (hshape : IsRefShape ws1 a b k ws2)
    (hout : S.GetOutputs smgr (S.GenStateKey a b) = .ok (.map outs))
    (hk : outs.lookup k = some v) :
    fillValue S smgr (.str (refString ws1 a b k ws2)) = (v, none) := by
  unfold fillValue
  simp only [isValidRefFormat_refString, if_true, getRefFormatString_refString _ _ _ _ _ hshape,
    Split_refContent a b k hshape.a_nodot hshape.b_nodot hshape.k_nodot]
  simp only [List.length_cons, List.length_nil, NAME_SEGMENT_NUM, KIND_SEGMENT_NUM,
    REF_SEGMENT_NUM, List.getD_cons_zero, List.getD_cons_succ]
  rw [if_neg (by decide), hout]
  simp only [hk]

/-! ## Claims about the reference resolver -/

theorem fill_none_of_allRefs {M : Type} (S : Manager M) (smgr : M) :
    ∀ o : Fields, o.AllRefs (GoodRef S smgr) → (fillRefValueWithOutputs S smgr o).2 = none := by
  apply Fields.induct_nested
  · intro _
    rfl
  · intro key sub rest ihs ihr h
    simp only [Fields.AllRefs] at h
    exact fill_cons_of_none S smgr key _ rest (ihs h.1) (ihr h.2)
  · intro key value rest hnm ihr h
    cases value with
    | map sub => exact absurd rfl (hnm sub)
    | str s =>
      simp only [Fields.AllRefs] at h
      refine fill_cons_of_none S smgr key _ rest ?_ (ihr h.2)
      by_cases hv : isValidRefFormat s = true
      · obtain ⟨ws1, a, b, k, ws2, outs, v, hshape, hs, hout, hk⟩ := h.1 hv
        rw [hs, fillValue_refString S smgr ws1 a b k ws2 outs v hshape hout hk]
      · simp only [fillValue, hv, Bool.false_eq_true, if_false]
    | null => exact fill_cons_of_none S smgr key _ rest rfl (ihr (by simpa [Fields.AllRefs] using h))
    | bool _ => exact fill_cons_of_none S smgr key _ rest rfl (ihr (by simpa [Fields.AllRefs] using h))
    | int _ => exact fill_cons_of_none S smgr key _ rest rfl (ihr (by simpa [Fields.AllRefs] using h))
    | seq _ => exact fill_cons_of_none S smgr key _ rest rfl (ihr (by simpa [Fields.AllRefs] using h))

theorem isRefShape_nil (a b k : Str) (ws1 ws2 : Str) (h : IsRefShape ws1 a b k ws2) :
    IsRefShape [] a b k [] :=
  { ws1_space := fun _ hc => by cases hc
    ws2_space := fun _ hc => by cases hc
    a_nodot := h.a_nodot
    b_nodot := h.b_nodot
    k_nodot := h.k_nodot
    a_head := h.a_head
    k_last := h.k_last }

/-- C5 as stated fails: in `mixedOptions` the leaf `q` is a reference to an
output that the State Manager holds, but the resolver returns at the
malformed leaf `p` visited before it and leaves `q` unresolved. -/
theorem C5_counterexample_earlier_leaf_fails :
    mixedOptions.getPath ["q".toList] =
        some (.str (refString [] "a".toList "default".toList "url".toList [])) ∧
      memManager.GetOutputs plainMem (memManager.GenStateKey "a".toList "default".toList) =
        .ok (.map urlOutputs) ∧
      urlOutputs.lookup "url".toList = some (.str "https://x".toList) ∧
      fillRefValueWithOutputs memManager plainMem mixedOptions =
        (mixedOptions, some "incorrect output reference: x".toList) ∧
      (fillRefValueWithOutputs memManager plainMem mixedOptions).1.getPath ["q".toList] ≠
        some (.str "https://x".toList) := by
  refine ⟨rfl, rfl, rfl, rfl, ?_⟩
  show some (Value.str "${{a.default.outputs.url}}".toList) ≠ _
  intro h
  injection h with h
  injection h with h
  exact absurd h (by decide)

/-- C5, amended: for a string leaf `${{` + whitespace + `a.b.outputs.k` +
whitespace + `}}`, at the top level or inside nested maps, and a State
Manager whose `GetOutputs(GenStateKey(a, b))` returns a map `outs` that has
`k`: when the resolver returns no error the leaf holds `outs[k]`
afterwards; when every wrapped string leaf of the tree is of this kind the
resolver returns no error (so the leaf holds `outs[k]`); and the loop body
replaces the spaced and the unspaced form by the same value. -/
theorem C5_reference_resolved {M : Type} (S : Manager M) (smgr : M) (o : Fields)
    (path : List Str) (ws1 a b k ws2 : Str) (outs : Fields) (v : Value)
    (hshape : IsRefShape ws1 a b k ws2)
    (hleaf : o.getPath path = some (.str (refString ws1 a b k ws2)))
    (hout : S.GetOutputs smgr (S.GenStateKey a b) = .ok (.map outs))
    (hk : outs.lookup k = some v) :
    ((fillRefValueWithOutputs S smgr o).2 = none →
        (fillRefValueWithOutputs S smgr o).1.getPath path = some v) ∧
      (o.AllRefs (GoodRef S smgr) →
        (fillRefValueWithOutputs S smgr o).2 = none ∧
          (fillRefValueWithOutputs S smgr o).1.getPath path = some v) ∧
      ∀ key rest,
        fillRefValueWithOutputs S smgr (.cons key (.str (refString ws1 a b k ws2)) rest) =
            fillNext key v (fillRefValueWithOutputs S smgr rest) ∧
          fillRefValueWithOutputs S smgr (.cons key (.str (refString [] a b k [])) rest) =
            fillNext key v (fillRefValueWithOutputs S smgr rest) := by
  have hv := fillValue_refString S smgr ws1 a b k ws2 outs v hshape hout hk
  have hv0 := fillValue_refString S smgr [] a b k [] outs v
    (isRefShape_nil a b k ws1 ws2 hshape) hout hk
  have h1 : (fillRefValueWithOutputs S smgr o).2 = none →
      (fillRefValueWithOutputs S smgr o).1.getPath path = some v := by
    intro hnone
    have := (fill_getPath S smgr _ path o hnone hleaf).2
    rwa [hv] at this
  refine ⟨h1, fun hall => ?_, fun key rest => ⟨?_, ?_⟩⟩
  · have hnone := fill_none_of_allRefs S smgr o hall
    exact ⟨hnone, h1 hnone⟩
  · rw [fillRefValueWithOutputs_cons, hv]
  · rw [fillRefValueWithOutputs_cons, hv0]

theorem isRefShape_example : IsRefShape [' '] "a".toList "default".toList "url".toList [' '] :=
  { ws1_space := by decide
    ws2_space := by decide
    a_nodot := by decide
    b_nodot := by decide
    k_nodot := by decide
    a_head := fun c h => by
      simp only [String.toList, List.head?_cons, Option.some.injEq] at h
      subst h
      decide
    k_last := fun c h => by
      simp only [String.toList, List.getLast?_cons_cons, List.getLast?_singleton,
        Option.some.injEq] at h
      subst h
      decide }

/-- C5 at a concrete input: the spaced reference inside the nested map of
`nestedOptions`, resolved against the State of the tool `a`. -/
theorem C5_reference_resolved_witness :
    (fillRefValueWithOutputs memManager plainMem nestedOptions).1.getPath
        ["server".toList, "endpoint".toList] = some (.str "https://x".toList) :=
  (C5_reference_resolved memManager plainMem nestedOptions
    ["server".toList, "endpoint".toList] [' '] "a".toList "default".toList "url".toList [' ']
    urlOutputs (.str "https://x".toList) isRefShape_example rfl rfl rfl).1 rfl

/-- C6 as stated fails: the wrapped leaves of `oddOptions`, one with five
segments and one whose third segment is not `outputs`, are both resolved
without an error, from their first, second and fourth segments. -/
theorem C6_counterexample_odd_shapes_accepted :
    fillRefValueWithOutputs memManager plainMem oddOptions =
      (.cons "p".toList (.str "https://x".toList)
        (.cons "q".toList (.str "https://x".toList) .nil), none) := by
  rfl

/-- C6, amended: a string leaf, at the top level or inside nested maps, that
starts with `${{` and ends with `}}` and whose trimmed content has three or
fewer dot-separated segments makes `fillRefValueWithOutputs` return an
error.  (Content of four or more segments is not rejected for its shape.) -/
theorem C6_short_reference_rejected {M : Type} (S : Manager M) (smgr : M) (o : Fields)
    (path : List Str) (s : Str) (hleaf : o.getPath path = some (.str s))
    (hfmt : isValidRefFormat s = true)
    (hshort : (Split (getRefFormatString s) '.').length ≤ 3) :
    (fillRefValueWithOutputs S smgr o).2 ≠ none := by
  intro hnone
  have h := (fill_getPath S smgr _ path o hnone hleaf).1
  simp only [fillValue, hfmt, hshort, if_true] at h
  cases h

/-- C6 at a concrete input: the leaf `${{x}}` of `mixedOptions`. -/
theorem C6_short_reference_rejected_witness :
    (fillRefValueWithOutputs memManager plainMem mixedOptions).2 ≠ none :=
  C6_short_reference_rejected memManager plainMem mixedOptions ["p".toList] "${{x}}".toList
    rfl rfl (by decide)

/-! ## The reference resolver: what a call leaves unchanged -/

/-- Whatever the resolver returns, the entry under a key holds its old value
or what the loop body made of it. -/
theorem fill_lookup_cases {M : Type} (S : Manager M) (smgr : M) (k : Str) (v : Value) :
    ∀ o : Fields, o.lookup k = some v →
      (fillRefValueWithOutputs S smgr o).1.lookup k = some v ∨
        (fillRefValueWithOutputs S smgr o).1.lookup k = some (fillValue S smgr v).1
  | .nil => fun h => by cases h
  | .cons key value rest => fun hl => by
    rw [fillRefValueWithOutputs_cons]
    unfold Fields.lookup at hl
    by_cases hk : key = k
    · simp only [hk, if_true, Option.some.injEq] at hl
      subst hl
      right
      cases (fillValue S smgr value).2 <;> simp [Fields.lookup, fillNext, hk]
    · simp only [hk, if_false] at hl
      cases (fillValue S smgr value).2 with
      | some e =>
        left
        simp only [Fields.lookup, hk, if_false, hl]
      | none =>
        simp only [fillNext, Fields.lookup, hk, if_false]
        exact fill_lookup_cases S smgr k v rest hl

/-- Whatever the resolver returns, a leaf that the loop body leaves as it is
holds its old value afterwards. -/
theorem fill_getPath_frame {M : Type} (S : Manager M) (smgr : M) (v : Value)
    (hv : (fillValue S smgr v).1 = v) :
    ∀ (path : List Str) (o : Fields), o.getPath path = some v →
      (fillRefValueWithOutputs S smgr o).1.getPath path = some v
  | [], _ => fun h => by simp [Fields.getPath] at h
  | [k], o => fun h => by
    simp only [Fields.getPath] at h ⊢
    rcases fill_lookup_cases S smgr k v o h with h' | h'
    · exact h'
    · rw [h', hv]
  | k :: k2 :: p, o => fun h => by
    simp only [Fields.getPath] at h ⊢
    cases hl : o.lookup k with
    | none => rw [hl] at h; cases h
    | some w =>
      rw [hl] at h
      cases w with
      | map m =>
        simp only at h
        rcases fill_lookup_cases S smgr k (.map m) o hl with h' | h'
        · rw [h']
          exact h
        · rw [h']
          simp only [fillValue]
          exact fill_getPath_frame S smgr v hv (k2 :: p) m h
      | _ => cases h

/-- Whatever the resolver returns, the leaf at a path holds its old value or
what the loop body made of it. -/
theorem fill_getPath_cases {M : Type} (S : Manager M) (smgr : M) (v : Value) :
    ∀ (path : List Str) (o : Fields), o.getPath path = some v →
      (fillRefValueWithOutputs S smgr o).1.getPath path = some v ∨
        (fillRefValueWithOutputs S smgr o).1.getPath path = some (fillValue S smgr v).1
  | [], _ => fun h => by simp [Fields.getPath] at h
  | [k], o => fun h => by
    simp only [Fields.getPath] at h ⊢
    exact fill_lookup_cases S smgr k v o h
  | k :: k2 :: p, o => fun h => by
    simp only [Fields.getPath] at h ⊢
    cases hl : o.lookup k with
    | none => rw [hl] at h; cases h
    | some w =>
      rw [hl] at h
      cases w with
      | map m =>
        simp only at h
        rcases fill_lookup_cases S smgr k (.map m) o hl with h' | h'
        · rw [h']
          exact Or.inl h
        · rw [h']
          simp only [fillValue]
          exact fill_getPath_cases S smgr v (k2 :: p) m h
      | _ => cases h

/-- The resolver keeps the keys of a map, in their order. -/
theorem fill_keys {M : Type} (S : Manager M) (smgr : M) :
    ∀ o : Fields, (fillRefValueWithOutputs S smgr o).1.keys = o.keys
  | .nil => rfl
  | .cons key value rest => by
    rw [fillRefValueWithOutputs_cons]
    cases (fillValue S smgr value).2 with
    | some e => rfl
    | none =>
      simp only [fillNext, Fields.keys]
      rw [fill_keys S smgr rest]

/-- When the loop body returns no error on the wrapped string leaves that
satisfy `Q`, the resolver returns no error on a tree all of whose wrapped
string leaves satisfy `Q`. -/
theorem fill_none_of_allRefs_of {M : Type} (S : Manager M) (smgr : M) (Q : Str → Prop)
    (hQ : ∀ s, isValidRefFormat s = true → Q s → (fillValue S smgr (.str s)).2 = none) :
    ∀ o : Fields, o.AllRefs Q → (fillRefValueWithOutputs S smgr o).2 = none := by
  apply Fields.induct_nested
  · intro _
    rfl
  · intro key sub rest ihs ihr h
    simp only [Fields.AllRefs] at h
    exact fill_cons_of_none S smgr key _ rest (ihs h.1) (ihr h.2)
  · intro key value rest hnm ihr h
    cases value with
    | map sub => exact absurd rfl (hnm sub)
    | str s =>
      simp only [Fields.AllRefs] at h
      refine fill_cons_of_none S smgr key _ rest ?_ (ihr h.2)
      by_cases hv : isValidRefFormat s = true
      · exact hQ s hv (h.1 hv)
      · simp only [fillValue, hv, Bool.false_eq_true, if_false]
    | null => exact fill_cons_of_none S smgr key _ rest rfl (ihr (by simpa [Fields.AllRefs] using h))
    | bool _ => exact fill_cons_of_none S smgr key _ rest rfl (ihr (by simpa [Fields.AllRefs] using h))
    | int _ => exact fill_cons_of_none S smgr key _ rest rfl (ihr (by simpa [Fields.AllRefs] using h))
    | seq _ => exact fill_cons_of_none S smgr key _ rest rfl (ihr (by simpa [Fields.AllRefs] using h))

/-- When the loop body returns no error or the error `e` on the wrapped string
leaves that satisfy `Q`, so does the resolver on a tree all of whose wrapped
string leaves satisfy `Q`. -/
theorem fill_err_of_allRefs_of {M : Type} (S : Manager M) (smgr : M) (Q : Str → Prop)
    (e : Err)
    (hQ : ∀ s, isValidRefFormat s = true → Q s →
      (fillValue S smgr (.str s)).2 = none ∨ (fillValue S smgr (.str s)).2 = some e) :
    ∀ o : Fields, o.AllRefs Q →
      (fillRefValueWithOutputs S smgr o).2 = none ∨
        (fillRefValueWithOutputs S smgr o).2 = some e := by
  have step : ∀ key value rest,
      ((fillValue S smgr value).2 = none ∨ (fillValue S smgr value).2 = some e) →
      ((fillRefValueWithOutputs S smgr rest).2 = none ∨
        (fillRefValueWithOutputs S smgr rest).2 = some e) →
      ((fillRefValueWithOutputs S smgr (.cons key value rest)).2 = none ∨
        (fillRefValueWithOutputs S smgr (.cons key value rest)).2 = some e) := by
    intro key value rest hv hr
    rw [fillRefValueWithOutputs_cons]
    rcases hv with hv | hv
    · rw [hv]
      exact hr
    · rw [hv]
      exact Or.inr rfl
  apply Fields.induct_nested
  · intro _
    exact Or.inl rfl
  · intro key sub rest ihs ihr h
    simp only [Fields.AllRefs] at h
    exact step key _ rest (ihs h.1) (ihr h.2)
  · intro key value rest hnm ihr h
    cases value with
    | map sub => exact absurd rfl (hnm sub)
    | str s =>
      simp only [Fields.AllRefs] at h
      refine step key _ rest ?_ (ihr h.2)
      by_cases hv : isValidRefFormat s = true
      · exact hQ s hv (h.1 hv)
      · simp only [fillValue, hv, Bool.false_eq_true, if_false, true_or]
    | null => exact step key _ rest (Or.inl rfl) (ihr (by simpa [Fields.AllRefs] using h))
    | bool _ => exact step key _ rest (Or.inl rfl) (ihr (by simpa [Fields.AllRefs] using h))
    | int _ => exact step key _ rest (Or.inl rfl) (ihr (by simpa [Fields.AllRefs] using h))
    | seq _ => exact step key _ rest (Or.inl rfl) (ihr (by simpa [Fields.AllRefs] using h))

theorem fillValue_refString_error {M : Type} (S : Manager M) (smgr : M) (ws1 a b k ws2 : Str)
    (e : Err) (hshape : IsRefShape ws1 a b k ws2)
    (herr : S.GetOutputs smgr (S.GenStateKey a b) = .error e) :
    fillValue S smgr (.str (refString ws1 a b k ws2)) =
      (.str (refString ws1 a b k ws2), some e) := by
  unfold fillValue
  simp only [isValidRefFormat_refString, if_true, getRefFormatString_refString _ _ _ _ _ hshape,
    Split_refContent a b k hshape.a_nodot hshape.b_nodot hshape.k_nodot]
  simp only [List.length_cons, List.length_nil, NAME_SEGMENT_NUM, KIND_SEGMENT_NUM,
    List.getD_cons_zero, List.getD_cons_succ]
  rw [if_neg (by decide), herr]

theorem fillValue_refString_missing {M : Type} (S : Manager M) (smgr : M)
    (ws1 a b k ws2 : Str) (outs : Fields) (hshape : IsRefShape ws1 a b k ws2)
    (hout : S.GetOutputs smgr (S.GenStateKey a b) = .ok (.map outs))
    (hk : outs.lookup k = none) :
    fillValue S smgr (.str (refString ws1 a b k ws2)) =
      (.null, some ("can not find ".toList ++ k ++ " in dependency outputs".toList)) := by
  unfold fillValue
  simp only [isValidRefFormat_refString, if_true, getRefFormatString_refString _ _ _ _ _ hshape,
    Split_refContent a b k hshape.a_nodot hshape.b_nodot hshape.k_nodot]
  simp only [List.length_cons, List.length_nil, NAME_SEGMENT_NUM, KIND_SEGMENT_NUM,
    REF_SEGMENT_NUM, List.getD_cons_zero, List.getD_cons_succ]
  rw [if_neg (by decide), hout]
  simp only [hk]

theorem fillValue_refString_not_map {M : Type} (S : Manager M) (smgr : M)
    (ws1 a b k ws2 : Str) (out : Value) (hshape : IsRefShape ws1 a b k ws2)
    (hok : S.GetOutputs smgr (S.GenStateKey a b) = .ok out) (hnm : ∀ m, out ≠ .map m) :
    fillValue S smgr (.str (refString ws1 a b k ws2)) =
      (.str (refString ws1 a b k ws2), none) := by
  unfold fillValue
  simp only [isValidRefFormat_refString, if_true, getRefFormatString_refString _ _ _ _ _ hshape,
    Split_refContent a b k hshape.a_nodot hshape.b_nodot hshape.k_nodot]
  simp only [List.length_cons, List.length_nil, NAME_SEGMENT_NUM, KIND_SEGMENT_NUM,
    List.getD_cons_zero, List.getD_cons_succ]
  rw [if_neg (by decide), hok]
  cases out with
  | map m => exact absurd rfl (hnm m)
  | _ => rfl

/-! ## Claims about the failures of the reference resolver -/

theorem isRefShape_plain : IsRefShape [] "a".toList "default".toList "url".toList [] :=
  { ws1_space := by decide
    ws2_space := by decide
    a_nodot := by decide
    b_nodot := by decide
    k_nodot := by decide
    a_head := fun c h => by
      simp only [String.toList, List.head?_cons, Option.some.injEq] at h
      subst h
      decide
    k_last := fun c h => by
      simp only [String.toList, List.getLast?_cons_cons, List.getLast?_singleton,
        Option.some.injEq] at h
      subst h
      decide }

/-- C12 (defect in the code): when the outputs lack the key, the leaf does
not keep its reference string.  The assignment `options[key], ok = outs[...]`
stores nil in the entry before the test of `ok`: for `missingKeyOptions`
against the State of the tool `a`, which has no output `port`, the call
returns the error and leaves `endpoint` holding nil. -/
theorem C12_missing_key_overwrites_leaf :
    memManager.GetOutputs plainMem (memManager.GenStateKey "a".toList "default".toList) =
        .ok (.map urlOutputs) ∧
      urlOutputs.lookup "port".toList = none ∧
      fillRefValueWithOutputs memManager plainMem missingKeyOptions =
        (.cons "endpoint".toList .null .nil,
          some "can not find port in dependency outputs".toList) := by
  refine ⟨rfl, rfl, rfl⟩

/-- C13 as stated fails: the resolver does not descend into sequences.  The
sequence of `seqOptions` holds a resolvable reference and a map with one;
the call returns no error and leaves both as they were. -/
theorem C13_counterexample_sequence_untouched :
    fillRefValueWithOutputs memManager plainMem seqOptions = (seqOptions, none) ∧
      fillValue memManager plainMem (.str "${{a.default.outputs.url}}".toList) =
        (.str "https://x".toList, none) := by
  constructor <;> rfl

/-- C13, amended: a sequence leaf, at the top level or inside nested maps, is
left as it is by `fillRefValueWithOutputs`, whatever its elements and
whatever the call returns; the loop body reports no error for it. -/
theorem C13_sequence_left_unchanged {M : Type} (S : Manager M) (smgr : M) (o : Fields)
    (path : List Str) (vs : Values) (hleaf : o.getPath path = some (.seq vs)) :
    (fillRefValueWithOutputs S smgr o).1.getPath path = some (.seq vs) ∧
      ∀ key rest,
        fillRefValueWithOutputs S smgr (.cons key (.seq vs) rest) =
          fillNext key (.seq vs) (fillRefValueWithOutputs S smgr rest) :=
  ⟨fill_getPath_frame S smgr _ rfl path o hleaf, fun _ _ => rfl⟩

/-- C13 at a concrete input: the sequence of `seqOptions`. -/
theorem C13_sequence_left_unchanged_witness :
    (fillRefValueWithOutputs memManager plainMem seqOptions).1.getPath ["hosts".toList] =
      some (.seq (.cons (.str "${{a.default.outputs.url}}".toList)
        (.cons (.map (.cons "u".toList (.str "${{a.default.outputs.url}}".toList) .nil))
          .nil))) :=
  (C13_sequence_left_unchanged memManager plainMem seqOptions ["hosts".toList] _ rfl).1

/-! ## Claims about what the reference resolver leaves alone -/

/-- C17: `fillRefValueWithOutputs` changes nothing but whole-string reference
leaves, whatever it returns.  The keys of the map and of every map nested
in it are the same afterwards; a leaf that is neither a string nor a map is
unchanged; and a string leaf that does not both start with `${{` and end
with `}}` is unchanged, such as one that holds a reference as a substring. -/
theorem C17_only_reference_leaves_change {M : Type} (S : Manager M) (smgr : M) (o : Fields) :
    (fillRefValueWithOutputs S smgr o).1.keys = o.keys ∧
    (∀ (path : List Str) (m : Fields), o.getPath path = some (.map m) →
      ∃ m', (fillRefValueWithOutputs S smgr o).1.getPath path = some (.map m') ∧
        m'.keys = m.keys) ∧
    (∀ (path : List Str) (v : Value), o.getPath path = some v →
      (∀ s, v ≠ .str s) → (∀ m, v ≠ .map m) →
        (fillRefValueWithOutputs S smgr o).1.getPath path = some v) ∧
    (∀ (path : List Str) (s : Str), o.getPath path = some (.str s) →
      isValidRefFormat s = false →
        (fillRefValueWithOutputs S smgr o).1.getPath path = some (.str s)) ∧
    isValidRefFormat "x-${{a.b.outputs.k}}-y".toList = false := by
  refine ⟨fill_keys S smgr o, ?_, ?_, ?_, by decide⟩
  · intro path m h
    rcases fill_getPath_cases S smgr _ path o h with h' | h'
    · exact ⟨m, h', rfl⟩
    · exact ⟨_, h', fill_keys S smgr m⟩
  · intro path v h hs hm
    refine fill_getPath_frame S smgr v ?_ path o h
    cases v with
    | str s => exact absurd rfl (hs s)
    | map m => exact absurd rfl (hm m)
    | _ => rfl
  · intro path s h hf
    refine fill_getPath_frame S smgr _ ?_ path o h
    simp only [fillValue, hf, Bool.false_eq_true, if_false]

/-- C18: the resolver makes a single pass.  The value `v` found for a
reference leaf is stored as it is, whatever it is (a string of the form
`${{...}}`, a map that holds such strings): the loop goes on to the next
entry with `v` in place, so `v` is neither resolved nor descended into and
raises no error; in a tree, the leaf afterwards holds its reference string
or `v`, and holds `v` when the call returns no error. -/
theorem C18_single_pass {M : Type} (S : Manager M) (smgr : M) (ws1 a b k ws2 : Str)
    (outs : Fields) (v : Value) (hshape : IsRefShape ws1 a b k ws2)
    (hout : S.GetOutputs smgr (S.GenStateKey a b) = .ok (.map outs))
    (hk : outs.lookup k = some v) :
    (∀ key rest,
      fillRefValueWithOutputs S smgr (.cons key (.str (refString ws1 a b k ws2)) rest) =
        (.cons key v (fillRefValueWithOutputs S smgr rest).1,
          (fillRefValueWithOutputs S smgr rest).2)) ∧
    (∀ (o : Fields) (path : List Str),
      o.getPath path = some (.str (refString ws1 a b k ws2)) →
        ((fillRefValueWithOutputs S smgr o).1.getPath path =
            some (.str (refString ws1 a b k ws2)) ∨
          (fillRefValueWithOutputs S smgr o).1.getPath path = some v) ∧
        ((fillRefValueWithOutputs S smgr o).2 = none →
          (fillRefValueWithOutputs S smgr o).1.getPath path = some v)) := by
  have hv := fillValue_refString S smgr ws1 a b k ws2 outs v hshape hout hk
  refine ⟨fun key rest => ?_, fun o path hleaf => ⟨?_, fun hnone => ?_⟩⟩
  · rw [fillRefValueWithOutputs_cons, hv]
    rfl
  · have h := fill_getPath_cases S smgr _ path o hleaf
    rwa [hv] at h
  · have h := (fill_getPath S smgr _ path o hnone hleaf).2
    rwa [hv] at h

/-- C18 at a concrete input: the outputs of the tool `a` in `chainMem` are a
reference string and a map with reference strings, one of them malformed;
they are stored as they are. -/
theorem C18_single_pass_witness :
    fillRefValueWithOutputs memManager chainMem chainOptions =
      (.cons "endpoint".toList (.str "${{c.default.outputs.url}}".toList)
        (.cons "extra".toList
          (.map (.cons "u".toList (.str "${{c.default.outputs.url}}".toList)
            (.cons "bad".toList (.str "${{x}}".toList) .nil))) .nil), none) :=
  (C18_single_pass memManager chainMem [] "a".toList "default".toList "url".toList []
    _ _ isRefShape_plain rfl rfl).1 "endpoint".toList _

/-- C19: a reference leaf `${{a.b.outputs.k}}` (possibly spaced) whose
`GetOutputs(GenStateKey(a, b))` succeeds with a value that is not a map.
The loop body leaves the leaf as it is and returns no error for it, going
on to the next entry; in every tree the leaf keeps its reference string;
and the call returns no error when every other wrapped string leaf of the
tree is resolvable. -/
theorem C19_outputs_not_a_map {M : Type} (S : Manager M) (smgr : M) (ws1 a b k ws2 : Str)
    (out : Value) (hshape : IsRefShape ws1 a b k ws2)
    (hok : S.GetOutputs smgr (S.GenStateKey a b) = .ok out) (hnm : ∀ m, out ≠ .map m) :
    (∀ key rest,
      fillRefValueWithOutputs S smgr (.cons key (.str (refString ws1 a b k ws2)) rest) =
        fillNext key (.str (refString ws1 a b k ws2)) (fillRefValueWithOutputs S smgr rest)) ∧
    (∀ (o : Fields) (path : List Str),
      o.getPath path = some (.str (refString ws1 a b k ws2)) →
        (fillRefValueWithOutputs S smgr o).1.getPath path =
          some (.str (refString ws1 a b k ws2))) ∧
    (∀ o : Fields,
      o.AllRefs (fun s => GoodRef S smgr s ∨ s = refString ws1 a b k ws2) →
        (fillRefValueWithOutputs S smgr o).2 = none) := by
  have hv := fillValue_refString_not_map S smgr ws1 a b k ws2 out hshape hok hnm
  refine ⟨fun key rest => ?_, fun o path hleaf => ?_, fun o hall => ?_⟩
  · rw [fillRefValueWithOutputs_cons, hv]
  · exact fill_getPath_frame S smgr _ (by rw [hv]) path o hleaf
  · refine fill_none_of_allRefs_of S smgr _ ?_ o hall
    intro s _ hs
    rcases hs with ⟨w1, a', b', k', w2, outs, v, hsh, hs, hout, hk'⟩ | hs
    · rw [hs, fillValue_refString S smgr w1 a' b' k' w2 outs v hsh hout hk']
    · rw [hs, hv]

/-- C19 at a concrete input: the reference of `refTool`, against a State
Manager whose `GetOutputs` returns a number. -/
theorem C19_outputs_not_a_map_witness :
    fillRefValueWithOutputs scalarManager () refTool.Options = (refTool.Options, none) :=
  (C19_outputs_not_a_map scalarManager () [] "a".toList "default".toList "url".toList []
    (.int 7) isRefShape_plain rfl (fun _ h => by cases h)).1 "endpoint".toList .nil

/-! ## Claims about the result of a change and the order of commits -/

theorem dispatch_create {W : Type} (P : Plugins W) (world : W) (tool : Tool) (e : Option Err) :
    (dispatch P world tool ActionCreate false e).succeeded =
        (P.Create world tool).2.2.isNone ∧
      (dispatch P world tool ActionCreate false e).err = (P.Create world tool).2.2 ∧
      (dispatch P world tool ActionCreate false e).returnValue = (P.Create world tool).2.1 := by
  unfold dispatch
  simp only [if_true]
  rcases P.Create world tool with ⟨w, rv, err⟩
  cases err <;> exact ⟨rfl, rfl, rfl⟩

theorem dispatch_update {W : Type} (P : Plugins W) (world : W) (tool : Tool) (e : Option Err) :
    (dispatch P world tool ActionUpdate false e).succeeded =
        (P.Update world tool).2.2.isNone ∧
      (dispatch P world tool ActionUpdate false e).err = (P.Update world tool).2.2 ∧
      (dispatch P world tool ActionUpdate false e).returnValue = (P.Update world tool).2.1 := by
  have hcu : ActionUpdate ≠ ActionCreate := by decide
  unfold dispatch
  simp only [hcu, if_false, if_true]
  rcases P.Update world tool with ⟨w, rv, err⟩
  cases err <;> exact ⟨rfl, rfl, rfl⟩

theorem dispatch_delete {W : Type} (P : Plugins W) (world : W) (tool : Tool) (e : Option Err) :
    (dispatch P world tool ActionDelete false e).succeeded = (P.Delete world tool).2.1 ∧
      (dispatch P world tool ActionDelete false e).err = (P.Delete world tool).2.2 := by
  have hdc : ActionDelete ≠ ActionCreate := by decide
  have hdu : ActionDelete ≠ ActionUpdate := by decide
  unfold dispatch
  rw [if_neg hdc, if_neg hdu, if_pos rfl]
  exact ⟨rfl, rfl⟩

theorem resultFromPlugin_processed {W M : Type} (P : Plugins W) (S : Manager M) (r : Run W M)
    (c : Change) : ResultFromPlugin P r.world (processed P S r c) := by
  refine ⟨_, rfl, ?_, ?_, ?_⟩
  · intro h
    have h' : c.ActionName = ActionCreate := h
    have hd := dispatch_create P r.world (resolvedTool S r.smgr c)
      (fillRefValueWithOutputs S r.smgr c.Tool.Options).2
    show ((stepDispatch P S r c).succeeded = true ↔ _) ∧ (stepDispatch P S r c).err = _
    unfold stepDispatch
    rw [succeededBeforeSwitch_eq, h', hd.1, hd.2.1]
    exact ⟨by simp [processed], rfl⟩
  · intro h
    have h' : c.ActionName = ActionUpdate := h
    have hd := dispatch_update P r.world (resolvedTool S r.smgr c)
      (fillRefValueWithOutputs S r.smgr c.Tool.Options).2
    show ((stepDispatch P S r c).succeeded = true ↔ _) ∧ (stepDispatch P S r c).err = _
    unfold stepDispatch
    rw [succeededBeforeSwitch_eq, h', hd.1, hd.2.1]
    exact ⟨by simp [processed], rfl⟩
  · intro h
    have h' : c.ActionName = ActionDelete := h
    have hd := dispatch_delete P r.world (resolvedTool S r.smgr c)
      (fillRefValueWithOutputs S r.smgr c.Tool.Options).2
    show (stepDispatch P S r c).succeeded = _ ∧ (stepDispatch P S r c).err = _
    unfold stepDispatch
    rw [succeededBeforeSwitch_eq, h', hd.1, hd.2]
    exact ⟨rfl, rfl⟩

/-- C14: `Result.Succeeded` of every change processed by `execute` comes from
the plugin call of the change.  For `Create` and `Update` it is true exactly
when the call returned a nil error, for `Delete` it is the boolean that
`Delete` returned; `Result.Error` is the error of the call.  This holds for
an iteration of the loop from any run, and so for every change of a plan
that `execute` has gone through. -/
theorem C14_succeeded_from_plugin {W M : Type} (P : Plugins W) (S : Manager M) :
    (∀ (r : Run W M) (c : Change), ∃ r', executeStep P S r c = some r' ∧
      r'.changes = r.changes ++ [processed P S r c] ∧
      ResultFromPlugin P r.world (processed P S r c)) ∧
    (∀ (world : W) (smgr : M) (plan : List Change), ∃ r,
      execute P S world smgr plan = some r ∧
      ∀ c' ∈ r.changes, ∃ w, ResultFromPlugin P w c') := by
  constructor
  · intro r c
    obtain ⟨h, _, heq⟩ := executeStep_eq P S r c
    exact ⟨_, heq, rfl, resultFromPlugin_processed P S r c⟩
  · intro world smgr plan
    obtain ⟨r, hr⟩ := execute_some P S world smgr plan
    refine ⟨r, hr, ?_⟩
    exact executeLoop_invariant P S
      (fun r _ => ∀ c' ∈ r.changes, ∃ w, ResultFromPlugin P w c')
      (by
        intro r c cs r' hinv hstep
        obtain ⟨hch, _⟩ := executeStep_cases P S r r' c hstep
        intro c' hc'
        rw [hch, List.mem_append, List.mem_singleton] at hc'
        rcases hc' with hc' | hc'
        · exact hinv c' hc'
        · exact ⟨r.world, hc' ▸ resultFromPlugin_processed P S r c⟩)
      plan { world := world, smgr := smgr, errorsMap := [], changes := [], trace := [] } r
      (by simp) hr

theorem executeLoop_append {W M : Type} (P : Plugins W) (S : Manager M) :
    ∀ (l₁ l₂ : List Change) (r r₁ : Run W M), executeLoop P S r l₁ = some r₁ →
      executeLoop P S r (l₁ ++ l₂) = executeLoop P S r₁ l₂ := by
  intro l₁
  induction l₁ with
  | nil =>
    intro l₂ r r₁ h
    simp only [executeLoop, Option.some.injEq] at h
    subst h
    rfl
  | cons c l₁ ih =>
    intro l₂ r r₁ h
    rw [executeLoop] at h
    rw [List.cons_append, executeLoop]
    cases hs : executeStep P S r c with
    | none => rw [hs] at h; cases h
    | some r' =>
      rw [hs] at h
      exact ih l₂ r' r₁ h

theorem executeLoop_singleton {W M : Type} (P : Plugins W) (S : Manager M) (r : Run W M)
    (c : Change) : executeLoop P S r [c] = executeStep P S r c := by
  unfold executeLoop
  cases executeStep P S r c <;> rfl


/-- C15 (defect in the code): in `mixedPlan` the tool `a` is created and its
State committed with the output `url`, and the options of the tool `b` hold
a reference to it.  The resolver returns an error at the malformed leaf of
`b` that it visits first, yet `execute` goes on to the `switch`: `Create` is
called on `b`, and the State of `b` committed, with the reference
unresolved, and the error of the resolver is lost. -/
theorem C15_unresolved_options_dispatched :
    execute okPlugins memManager 0 emptyMem mixedPlan = some
      { world := 2
        smgr :=
          { states :=
              [("b_default".toList,
                { Name := mixedTool.Name, Plugin := mixedTool.Plugin, Options := mixedOptions,
                  Resource := urlOutputs }),
               ("a_default".toList, plainState)]
            failWrites := false }
        errorsMap := []
        changes :=
          [{ Tool := plainTool, ActionName := ActionCreate, Description := []
             Result := some
               { Succeeded := true, Error := none, Time := "2022-01-01T00:00:00Z".toList,
                 ReturnValue := urlOutputs } },
           { Tool := mixedTool, ActionName := ActionCreate, Description := []
             Result := some
               { Succeeded := true, Error := none, Time := "2022-01-01T00:00:00Z".toList,
                 ReturnValue := urlOutputs } }]
        trace :=
          [.pluginCreate plainTool,
           .addState "a_default".toList plainState none,
           .pluginCreate mixedTool,
           .addState "b_default".toList
             { Name := mixedTool.Name, Plugin := mixedTool.Plugin, Options := mixedOptions,
               Resource := urlOutputs } none] } ∧
      mixedTool.Options.getPath ["q".toList] =
        some (.str (refString [] "a".toList "default".toList "url".toList [])) ∧
      memManager.GenStateKey "a".toList "default".toList =
        memManager.StateKeyGenerateFunc plainTool ∧
      urlOutputs.lookup "url".toList = some (.str "https://x".toList) ∧
      fillRefValueWithOutputs memManager pipeRunA.smgr mixedTool.Options =
        (mixedOptions, some "incorrect output reference: x".toList) := by
  refine ⟨rfl, rfl, rfl, rfl, rfl⟩

theorem executeStep_addState {W M : Type} (P : Plugins W) (S : Manager M) (r r' : Run W M)
    (c : Change) (result : ChangeResult) (hact : c.ActionName ≠ ActionDelete)
    (hstep : executeStep P S r c = some r')
    (hres : (processed P S r c).Result = some result) (hsucc : result.Succeeded = true) :
    r'.smgr = (S.AddState r.smgr (S.StateKeyGenerateFunc (resolvedTool S r.smgr c))
        { Name := c.Tool.Name
          Plugin := c.Tool.Plugin
          Options := (fillRefValueWithOutputs S r.smgr c.Tool.Options).1
          Resource := result.ReturnValue }).1 ∧
      r'.trace = r.trace ++ pluginCallOf (resolvedTool S r.smgr c) c.ActionName ++
        [.addState (S.StateKeyGenerateFunc (resolvedTool S r.smgr c))
          { Name := c.Tool.Name
            Plugin := c.Tool.Plugin
            Options := (fillRefValueWithOutputs S r.smgr c.Tool.Options).1
            Resource := result.ReturnValue }
          (S.AddState r.smgr (S.StateKeyGenerateFunc (resolvedTool S r.smgr c))
            { Name := c.Tool.Name
              Plugin := c.Tool.Plugin
              Options := (fillRefValueWithOutputs S r.smgr c.Tool.Options).1
              Resource := result.ReturnValue }).2] := by
  have hnd : (processed P S r c).ActionName ≠ ActionDelete := hact
  obtain ⟨h, hh, heq⟩ := executeStep_eq P S r c
  rw [heq] at hstep
  rw [handleResult_add S r.smgr (processed P S r c) result hres hsucc hnd] at hh
  simp only [Option.some.injEq] at hh hstep
  subst hh
  subst hstep
  refine ⟨rfl, ?_⟩
  show r.trace ++ (stepDispatch P S r c).calls ++ _ = _
  unfold stepDispatch
  rw [dispatch_calls]
  rfl

/-- The order of commit and resolution along a plan.  In a plan
`.. Create(A) .. Create(B) ..` where the `Create` of `A` succeeds with a
return value that holds `k`, the `AddState` of `A` returns no error, the
State entry of `A` is the same when `execute` reaches `B` as after the
commit of `A`, the options of `B` hold the leaf `${{s0.s1.outputs.k}}` with
`GenStateKey(s0, s1)` the State key of `A`, and the resolver returns no
error on the options of `B`: the plugin of `B` is called with options in
which that leaf is the value of `k` returned for `A`, and the State
committed for `B` holds the same options. -/
theorem later_change_sees_committed_outputs {W M : Type} (P : Plugins W) (S : Manager M)
    (hlaw : S.Lawful) (r0 r1 r2 r3 r4 : Run W M) (pre mid : List Change) (cA cB : Change)
    (resA : ChangeResult) (path : List Str) (ws1 s0 s1 k ws2 : Str) (v : Value)
    (hpre : executeLoop P S r0 pre = some r1)
    (hA : executeStep P S r1 cA = some r2)
    (hmid : executeLoop P S r2 mid = some r3)
    (hB : executeStep P S r3 cB = some r4)
    (hactA : cA.ActionName = ActionCreate) (hactB : cB.ActionName = ActionCreate)
    (hresA : (processed P S r1 cA).Result = some resA) (hsuccA : resA.Succeeded = true)
    (hk : resA.ReturnValue.lookup k = some v)
    (haddA : (S.AddState r1.smgr (S.StateKeyGenerateFunc (resolvedTool S r1.smgr cA))
      { Name := cA.Tool.Name
        Plugin := cA.Tool.Plugin
        Options := (fillRefValueWithOutputs S r1.smgr cA.Tool.Options).1
        Resource := resA.ReturnValue }).2 = none)
    (hkeep : S.GetState r3.smgr (S.StateKeyGenerateFunc (resolvedTool S r1.smgr cA)) =
      S.GetState r2.smgr (S.StateKeyGenerateFunc (resolvedTool S r1.smgr cA)))
    (hshape : IsRefShape ws1 s0 s1 k ws2)
    (hleaf : cB.Tool.Options.getPath path = some (.str (refString ws1 s0 s1 k ws2)))
    (hkey : S.GenStateKey s0 s1 = S.StateKeyGenerateFunc (resolvedTool S r1.smgr cA))
    (hnoerr : (fillRefValueWithOutputs S r3.smgr cB.Tool.Options).2 = none) :
    executeLoop P S r0 (pre ++ cA :: (mid ++ [cB])) = some r4 ∧
      (resolvedTool S r3.smgr cB).Options.getPath path = some v ∧
      (∃ commits, r4.trace = r3.trace ++ [.pluginCreate (resolvedTool S r3.smgr cB)] ++ commits ∧
        ∀ ev ∈ commits, ev.isPluginCall = false) ∧
      (∀ resB, (processed P S r3 cB).Result = some resB → resB.Succeeded = true →
        (S.AddState r3.smgr (S.StateKeyGenerateFunc (resolvedTool S r3.smgr cB))
          { Name := cB.Tool.Name
            Plugin := cB.Tool.Plugin
            Options := (resolvedTool S r3.smgr cB).Options
            Resource := resB.ReturnValue }).2 = none →
        ∃ st, S.GetState r4.smgr (S.StateKeyGenerateFunc (resolvedTool S r3.smgr cB)) =
            some st ∧ st.Options.getPath path = some v) := by
  have hnotdelA : cA.ActionName ≠ ActionDelete := by rw [hactA]; decide
  have hnotdelB : cB.ActionName ≠ ActionDelete := by rw [hactB]; decide
  have hsmgr2 := (executeStep_addState P S r1 r2 cA resA hnotdelA hA hresA hsuccA).1
  have hstate2 := hlaw.getState_addState _ _ _ haddA
  rw [← hsmgr2] at hstate2
  have hout := hlaw.getOutputs_of_getState r3.smgr _ _ (hkeep.trans hstate2)
  rw [← hkey] at hout
  have hv := fillValue_refString S r3.smgr ws1 s0 s1 k ws2 _ v hshape hout hk
  have hopt : (resolvedTool S r3.smgr cB).Options.getPath path = some v := by
    have h := (fill_getPath S r3.smgr _ path cB.Tool.Options hnoerr hleaf).2
    rwa [hv] at h
  refine ⟨?_, hopt, ?_, ?_⟩
  · rw [executeLoop_append P S pre _ r0 r1 hpre, executeLoop, hA]
    show executeLoop P S r2 (mid ++ [cB]) = some r4
    rw [executeLoop_append P S mid _ r2 r3 hmid, executeLoop_singleton, hB]
  · obtain ⟨_, _, commits, _, htr, hcase⟩ := executeStep_cases P S r3 r4 cB hB
    refine ⟨commits, ?_, ?_⟩
    · rw [htr, hactB]
      rfl
    · intro ev hev
      rcases hcase with ⟨_, _, h⟩ | ⟨_, _, ev', h, hp, _⟩
      · rw [h] at hev
        cases hev
      · rw [h, List.mem_singleton] at hev
        rw [hev]
        exact hp
  · intro resB hresB hsuccB haddB
    have hsmgr4 := (executeStep_addState P S r3 r4 cB resB hnotdelB hB hresB hsuccB).1
    refine ⟨{ Name := cB.Tool.Name
              Plugin := cB.Tool.Plugin
              Options := (resolvedTool S r3.smgr cB).Options
              Resource := resB.ReturnValue }, ?_, hopt⟩
    rw [hsmgr4]
    exact hlaw.getState_addState _ _ _ haddB

/-- The plan `pipePlan`, in which `refTool` refers to the output `url` of
`plainTool` created before it, runs to `pipeRunB`: the reference is resolved
when `refTool` is dispatched. -/
theorem pipePlan_resolves_reference :
    executeLoop okPlugins memManager (startRun emptyMem) pipePlan = some pipeRunB ∧
      (resolvedTool memManager pipeRunA.smgr refCreate).Options.getPath ["endpoint".toList] =
        some (.str "https://x".toList) :=
  let h := later_change_sees_committed_outputs okPlugins memManager memManager_lawful
    (startRun emptyMem) (startRun emptyMem) pipeRunA pipeRunA pipeRunB [] [] plainCreate
    refCreate
    { Succeeded := true, Error := none, Time := "2022-01-01T00:00:00Z".toList,
      ReturnValue := urlOutputs }
    ["endpoint".toList] [] "a".toList "default".toList "url".toList []
    (.str "https://x".toList)
    rfl rfl rfl rfl rfl rfl rfl rfl rfl rfl rfl isRefShape_plain rfl rfl rfl
  ⟨h.1, h.2.1⟩

/-! ## The dependency check of the Config -/

theorem validate_inner (cfg : Config) :
    ∀ (ds : List Str) (errors : List Err),
      ds.foldl
          (fun errors dependency =>
            if dependency ∈ declaredRefs cfg then errors
            else errors ++ [missingDependencyError dependency])
          errors =
        errors ++ (ds.filter (fun d => d ∉ declaredRefs cfg)).map missingDependencyError := by
  intro ds
  induction ds with
  | nil => intro errors; simp
  | cons d ds ih =>
    intro errors
    rw [List.foldl_cons, ih]
    by_cases hd : d ∈ declaredRefs cfg
    · simp [hd, List.filter_cons]
    · simp [hd, List.filter_cons]

theorem validate_outer (cfg : Config) :
    ∀ (ts : List Tool) (errors : List Err),
      ts.foldl
          (fun errors tool =>
            tool.DependsOn.foldl
              (fun errors dependency =>
                if dependency ∈ declaredRefs cfg then errors
                else errors ++ [missingDependencyError dependency])
              errors)
          errors =
        errors ++ (undeclaredEntries cfg ts).map missingDependencyError := by
  intro ts
  induction ts with
  | nil => intro errors; simp [undeclaredEntries]
  | cons t ts ih =>
    intro errors
    rw [List.foldl_cons, ih, validate_inner]
    simp [undeclaredEntries]

theorem mem_undeclaredEntries (cfg : Config) (d : Str) :
    ∀ ts : List Tool, d ∈ undeclaredEntries cfg ts ↔
      ∃ t ∈ ts, d ∈ t.DependsOn ∧ d ∉ declaredRefs cfg := by
  intro ts
  induction ts with
  | nil => simp [undeclaredEntries]
  | cons t ts ih =>
    simp only [undeclaredEntries, List.mem_append, List.mem_filter, ih, List.mem_cons,
      decide_eq_true_eq, exists_eq_or_imp]

theorem length_undeclaredEntries (cfg : Config) :
    ∀ ts : List Tool, (undeclaredEntries cfg ts).length =
      (ts.map (fun t => t.DependsOn.countP (fun d => d ∉ declaredRefs cfg))).sum := by
  intro ts
  induction ts with
  | nil => rfl
  | cons t ts ih =>
    simp only [undeclaredEntries, List.length_append, ih, List.map_cons, List.sum_cons,
      List.countP_eq_length_filter]

/-- C16: `ValidateDependency` returns one error for each entry of a
`DependsOn` (tool by tool, entry by entry) that is not in the set
`Name + "." + InstanceID` of the tools of the Config, and no other error.
So it returns no error when every entry is declared or every `DependsOn`
is empty; on the Configs of the tests it returns 0 errors (single
dependency, several dependencies, empty list) and 1 error, naming
`argocd.argocd`, for `argocdapp` alone. -/
theorem C16_validate_dependency (cfg : Config) :
    ValidateDependency cfg = (undeclaredEntries cfg cfg.Tools).map missingDependencyError ∧
    (ValidateDependency cfg).length =
      (cfg.Tools.map (fun t => t.DependsOn.countP (fun d => d ∉ declaredRefs cfg))).sum ∧
    (∀ e, e ∈ ValidateDependency cfg ↔
      ∃ t ∈ cfg.Tools, ∃ d ∈ t.DependsOn, d ∉ declaredRefs cfg ∧
        e = missingDependencyError d) ∧
    ((∀ t ∈ cfg.Tools, ∀ d ∈ t.DependsOn, d ∈ declaredRefs cfg) →
      ValidateDependency cfg = []) ∧
    ((∀ t ∈ cfg.Tools, t.DependsOn = []) → ValidateDependency cfg = []) ∧
    ValidateDependency singleDepConfig = [] ∧
    ValidateDependency missingDepConfig = [missingDependencyError "argocd.argocd".toList] ∧
    ValidateDependency multiDepConfig = [] ∧
    ValidateDependency emptyDepConfig = [] := by
  have heq : ValidateDependency cfg =
      (undeclaredEntries cfg cfg.Tools).map missingDependencyError := by
    unfold ValidateDependency
    rw [validate_outer]
    rfl
  have hnil : (∀ t ∈ cfg.Tools, ∀ d ∈ t.DependsOn, d ∈ declaredRefs cfg) →
      ValidateDependency cfg = [] := by
    intro h
    rw [heq, List.map_eq_nil_iff, List.eq_nil_iff_forall_not_mem]
    intro d hd
    obtain ⟨t, ht, hdt, hnd⟩ := (mem_undeclaredEntries cfg d cfg.Tools).mp hd
    exact hnd (h t ht d hdt)
  refine ⟨heq, ?_, ?_, hnil, ?_, by decide, by decide, by decide, by decide⟩
  · rw [heq, List.length_map, length_undeclaredEntries]
  · intro e
    rw [heq, List.mem_map]
    constructor
    · rintro ⟨d, hd, rfl⟩
      obtain ⟨t, ht, hdt, hnd⟩ := (mem_undeclaredEntries cfg d cfg.Tools).mp hd
      exact ⟨t, ht, d, hdt, hnd, rfl⟩
    · rintro ⟨t, ht, d, hdt, hnd, rfl⟩
      exact ⟨d, (mem_undeclaredEntries cfg d cfg.Tools).mpr ⟨t, ht, hdt, hnd⟩, rfl⟩
  · intro h
    apply hnil
    intro t ht d hd
    rw [h t ht] at hd
    cases hd

/-! ## The reference resolver run twice -/

/-- The resolver leaves a map that holds no wrapped string as it is, without
an error. -/
theorem fill_of_not_holdsRef {M : Type} (S : Manager M) (smgr : M) :
    ∀ m : Fields, m.holdsRef = false → fillRefValueWithOutputs S smgr m = (m, none) := by
  apply Fields.induct_nested
  · intro _
    rfl
  · intro key sub rest ihs ihr h
    simp only [Fields.holdsRef, Value.holdsRef, Bool.or_eq_false_iff] at h
    rw [fillRefValueWithOutputs_cons]
    simp only [fillValue, ihs h.1, ihr h.2, fillNext]
  · intro key value rest hnm ihr h
    simp only [Fields.holdsRef, Bool.or_eq_false_iff] at h
    rw [fillRefValueWithOutputs_cons]
    cases value with
    | map sub => exact absurd rfl (hnm sub)
    | str s =>
      have hs : isValidRefFormat s = false := by simpa [Value.holdsRef] using h.1
      simp only [fillValue, hs, Bool.false_eq_true, if_false, ihr h.2, fillNext]
    | null => simp only [fillValue, ihr h.2, fillNext]
    | bool _ => simp only [fillValue, ihr h.2, fillNext]
    | int _ => simp only [fillValue, ihr h.2, fillNext]
    | seq _ => simp only [fillValue, ihr h.2, fillNext]

/-- The loop body leaves a value that neither is nor holds a wrapped string
as it is, without an error. -/
theorem fillValue_of_not_holdsRef {M : Type} (S : Manager M) (smgr : M) (v : Value)
    (h : v.holdsRef = false) : fillValue S smgr v = (v, none) := by
  cases v with
  | map m =>
    simp only [Value.holdsRef] at h
    simp only [fillValue, fill_of_not_holdsRef S smgr m h]
  | str s =>
    have hs : isValidRefFormat s = false := by simpa [Value.holdsRef] using h
    simp only [fillValue, hs, Bool.false_eq_true, if_false]
  | _ => rfl

theorem fillValue_long_error {M : Type} (S : Manager M) (smgr : M) (s : Str) (e : Err)
    (hv : isValidRefFormat s = true) (hl : ¬ (Split (getRefFormatString s) '.').length ≤ 3)
    (hg : S.GetOutputs smgr (S.GenStateKey
      ((Split (getRefFormatString s) '.').getD NAME_SEGMENT_NUM [])
      ((Split (getRefFormatString s) '.').getD KIND_SEGMENT_NUM [])) = .error e) :
    fillValue S smgr (.str s) = (.str s, some e) := by
  simp only [fillValue, hv, hl, if_true, if_false, hg]

theorem fillValue_long_found {M : Type} (S : Manager M) (smgr : M) (s : Str) (outs : Fields)
    (v : Value) (hv : isValidRefFormat s = true)
    (hl : ¬ (Split (getRefFormatString s) '.').length ≤ 3)
    (hg : S.GetOutputs smgr (S.GenStateKey
      ((Split (getRefFormatString s) '.').getD NAME_SEGMENT_NUM [])
      ((Split (getRefFormatString s) '.').getD KIND_SEGMENT_NUM [])) = .ok (.map outs))
    (hk : outs.lookup ((Split (getRefFormatString s) '.').getD REF_SEGMENT_NUM []) = some v) :
    fillValue S smgr (.str s) = (v, none) := by
  simp only [fillValue, hv, hl, if_true, if_false, hg, hk]

theorem fillValue_long_missing {M : Type} (S : Manager M) (smgr : M) (s : Str) (outs : Fields)
    (hv : isValidRefFormat s = true) (hl : ¬ (Split (getRefFormatString s) '.').length ≤ 3)
    (hg : S.GetOutputs smgr (S.GenStateKey
      ((Split (getRefFormatString s) '.').getD NAME_SEGMENT_NUM [])
      ((Split (getRefFormatString s) '.').getD KIND_SEGMENT_NUM [])) = .ok (.map outs))
    (hk : outs.lookup ((Split (getRefFormatString s) '.').getD REF_SEGMENT_NUM []) = none) :
    (fillValue S smgr (.str s)).2 ≠ none := by
  simp only [fillValue, hv, hl, if_true, if_false, hg, hk]
  intro h
  cases h

theorem fillValue_long_not_map {M : Type} (S : Manager M) (smgr : M) (s : Str) (out : Value)
    (hv : isValidRefFormat s = true) (hl : ¬ (Split (getRefFormatString s) '.').length ≤ 3)
    (hg : S.GetOutputs smgr (S.GenStateKey
      ((Split (getRefFormatString s) '.').getD NAME_SEGMENT_NUM [])
      ((Split (getRefFormatString s) '.').getD KIND_SEGMENT_NUM [])) = .ok out)
    (hnm : ∀ m, out ≠ .map m) :
    fillValue S smgr (.str s) = (.str s, none) := by
  cases out with
  | map m => exact absurd rfl (hnm m)
  | _ => simp only [fillValue, hv, hl, if_true, if_false, hg]

/-- The loop body run on what it made of a string leaf changes nothing more,
when it returned no error and the value it substituted holds no wrapped
string. -/
theorem fillValue_str_twice {M : Type} (S : Manager M) (smgr : M) (s : Str)
    (hnone : (fillValue S smgr (.str s)).2 = none)
    (hclean : isValidRefFormat s = true → substitutesRefFree S smgr s = true) :
    fillValue S smgr (fillValue S smgr (.str s)).1 = ((fillValue S smgr (.str s)).1, none) := by
  by_cases hv : isValidRefFormat s = true
  · have hc := hclean hv
    by_cases hl : (Split (getRefFormatString s) '.').length ≤ 3
    · simp only [fillValue, hv, hl, if_true] at hnone
      cases hnone
    · unfold substitutesRefFree at hc
      simp only [hl, if_false] at hc
      cases hg : S.GetOutputs smgr (S.GenStateKey
          ((Split (getRefFormatString s) '.').getD NAME_SEGMENT_NUM [])
          ((Split (getRefFormatString s) '.').getD KIND_SEGMENT_NUM [])) with
      | error e =>
        rw [fillValue_long_error S smgr s e hv hl hg] at hnone
        cases hnone
      | ok out =>
        rw [hg] at hc
        by_cases hm : ∃ outs, out = .map outs
        · obtain ⟨outs, rfl⟩ := hm
          cases hlk : outs.lookup ((Split (getRefFormatString s) '.').getD REF_SEGMENT_NUM [])
            with
          | none => exact absurd hnone (fillValue_long_missing S smgr s outs hv hl hg hlk)
          | some v =>
            simp only [hlk, Bool.not_eq_true'] at hc
            rw [fillValue_long_found S smgr s outs v hv hl hg hlk]
            exact fillValue_of_not_holdsRef S smgr v hc
        · have hnm : ∀ m, out ≠ .map m := fun m h => hm ⟨m, h⟩
          have hf := fillValue_long_not_map S smgr s out hv hl hg hnm
          rw [hf]
          exact hf
  · have hf : fillValue S smgr (.str s) = (.str s, none) := by
      simp only [fillValue, hv, Bool.false_eq_true, if_false]
    rw [hf]
    exact hf

/-- The resolver run on what a first call left changes nothing more and
returns no error, when the first call returned no error and the values it
substituted hold no wrapped string. -/
theorem fill_twice {M : Type} (S : Manager M) (smgr : M) :
    ∀ o : Fields, (fillRefValueWithOutputs S smgr o).2 = none →
      o.AllRefs (fun s => substitutesRefFree S smgr s = true) →
      fillRefValueWithOutputs S smgr (fillRefValueWithOutputs S smgr o).1 =
        ((fillRefValueWithOutputs S smgr o).1, none) := by
  have step : ∀ key value rest,
      (fillRefValueWithOutputs S smgr (.cons key value rest)).2 = none →
      fillValue S smgr (fillValue S smgr value).1 = ((fillValue S smgr value).1, none) →
      (fillRefValueWithOutputs S smgr rest).2 = none →
      fillRefValueWithOutputs S smgr (fillRefValueWithOutputs S smgr rest).1 =
        ((fillRefValueWithOutputs S smgr rest).1, none) →
      fillRefValueWithOutputs S smgr (fillRefValueWithOutputs S smgr (.cons key value rest)).1 =
        ((fillRefValueWithOutputs S smgr (.cons key value rest)).1, none) := by
    intro key value rest hnone hval _ hrest
    rw [(fill_none_cons S smgr key value rest hnone).2.2, fillRefValueWithOutputs_cons, hval]
    simp only [fillNext, hrest]
  apply Fields.induct_nested
  · intro _ _
    rfl
  · intro key sub rest ihs ihr hnone hall
    simp only [Fields.AllRefs] at hall
    obtain ⟨h1, h2, _⟩ := fill_none_cons S smgr key _ rest hnone
    refine step key _ rest hnone ?_ h2 (ihr h2 hall.2)
    simp only [fillValue] at h1 ⊢
    rw [ihs h1 hall.1]
  · intro key value rest hnm ihr hnone hall
    obtain ⟨h1, h2, _⟩ := fill_none_cons S smgr key _ rest hnone
    cases value with
    | map sub => exact absurd rfl (hnm sub)
    | str s =>
      simp only [Fields.AllRefs] at hall
      exact step key _ rest hnone (fillValue_str_twice S smgr s h1 hall.1) h2 (ihr h2 hall.2)
    | null => exact step key _ rest hnone rfl h2 (ihr h2 (by simpa [Fields.AllRefs] using hall))
    | bool _ => exact step key _ rest hnone rfl h2 (ihr h2 (by simpa [Fields.AllRefs] using hall))
    | int _ => exact step key _ rest hnone rfl h2 (ihr h2 (by simpa [Fields.AllRefs] using hall))
    | seq _ => exact step key _ rest hnone rfl h2 (ihr h2 (by simpa [Fields.AllRefs] using hall))

/-- C21: `fillRefValueWithOutputs` is idempotent when the outputs it
substitutes carry no references.  For every State Manager and options tree
on which a first call returns no error, and in which no output value
substituted for a wrapped string leaf is, or contains, a string that starts
with `${{` and ends with `}}`: a second call against the same State Manager
returns no error and leaves the options exactly as the first call left
them. -/
theorem C21_resolver_idempotent {M : Type} (S : Manager M) (smgr : M) (o : Fields)
    (hfirst : (fillRefValueWithOutputs S smgr o).2 = none)
    (hclean : o.AllRefs (fun s => substitutesRefFree S smgr s = true)) :
    (fillRefValueWithOutputs S smgr (fillRefValueWithOutputs S smgr o).1).2 = none ∧
      (fillRefValueWithOutputs S smgr (fillRefValueWithOutputs S smgr o).1).1 =
        (fillRefValueWithOutputs S smgr o).1 := by
  rw [fill_twice S smgr o hfirst hclean]
  exact ⟨rfl, rfl⟩

/-- C21 at a concrete input: `variedOptions` against the State of the tool
`a`, whose output `url` is a plain string. -/
theorem C21_resolver_idempotent_witness :
    (fillRefValueWithOutputs memManager plainMem
        (fillRefValueWithOutputs memManager plainMem variedOptions).1).2 = none ∧
      (fillRefValueWithOutputs memManager plainMem
        (fillRefValueWithOutputs memManager plainMem variedOptions).1).1 =
        .cons "server".toList
          (.map (.cons "endpoint".toList (.str "https://x".toList)
            (.cons "port".toList (.int 8080) .nil)))
          (.cons "label".toList (.str "x-${{a.default.outputs.url}}-y".toList)
            (.cons "hosts".toList
              (.seq (.cons (.str "${{a.default.outputs.url}}".toList) .nil)) .nil)) :=
  C21_resolver_idempotent memManager plainMem variedOptions rfl
    ⟨⟨fun _ => rfl, trivial⟩, fun h => absurd h (by decide), trivial⟩

/-! ## The reference resolver: the first failing leaf -/

/-- When the resolver returns no error on the entries visited first, it goes
on with the entries that follow. -/
theorem fill_append_of_none {M : Type} (S : Manager M) (smgr : M) (o : Fields) :
    ∀ pre : Fields, (fillRefValueWithOutputs S smgr pre).2 = none →
      fillRefValueWithOutputs S smgr (pre.append o) =
        ((fillRefValueWithOutputs S smgr pre).1.append (fillRefValueWithOutputs S smgr o).1,
          (fillRefValueWithOutputs S smgr o).2)
  | .nil => fun _ => rfl
  | .cons key value rest => fun hnone => by
    obtain ⟨h1, h2, h3⟩ := fill_none_cons S smgr key value rest hnone
    rw [h3]
    show fillRefValueWithOutputs S smgr (.cons key value (rest.append o)) = _
    rw [fillRefValueWithOutputs_cons, h1]
    simp only [fillNext, fill_append_of_none S smgr o rest h2, Fields.append]

/-- When every wrapped string leaf of a tree satisfies `Q` and the loop body
returns on such leaves only errors that satisfy `E`, an error returned by
the resolver satisfies `E`. -/
theorem fill_err_kind_of_allRefs {M : Type} (S : Manager M) (smgr : M) (Q : Str → Prop)
    (E : Err → Prop)
    (hQ : ∀ s, isValidRefFormat s = true → Q s →
      ∀ e, (fillValue S smgr (.str s)).2 = some e → E e) :
    ∀ o : Fields, o.AllRefs Q → ∀ e, (fillRefValueWithOutputs S smgr o).2 = some e → E e := by
  have step : ∀ key value rest,
      (∀ e, (fillValue S smgr value).2 = some e → E e) →
      (∀ e, (fillRefValueWithOutputs S smgr rest).2 = some e → E e) →
      ∀ e, (fillRefValueWithOutputs S smgr (.cons key value rest)).2 = some e → E e := by
    intro key value rest hv hr e he
    rw [fillRefValueWithOutputs_cons] at he
    cases hval : (fillValue S smgr value).2 with
    | some e' =>
      rw [hval] at he
      simp only [Option.some.injEq] at he
      exact hv e (he ▸ hval)
    | none =>
      rw [hval] at he
      exact hr e he
  apply Fields.induct_nested
  · intro _ e he
    cases he
  · intro key sub rest ihs ihr h
    simp only [Fields.AllRefs] at h
    exact step key _ rest (fun e he => ihs h.1 e he) (ihr h.2)
  · intro key value rest hnm ihr h
    cases value with
    | map sub => exact absurd rfl (hnm sub)
    | str s =>
      simp only [Fields.AllRefs] at h
      refine step key _ rest ?_ (ihr h.2)
      intro e he
      by_cases hv : isValidRefFormat s = true
      · exact hQ s hv (h.1 hv) e he
      · simp only [fillValue, hv, Bool.false_eq_true, if_false] at he
        cases he
    | null =>
      exact step key _ rest (fun e he => by cases he) (ihr (by simpa [Fields.AllRefs] using h))
    | bool _ =>
      exact step key _ rest (fun e he => by cases he) (ihr (by simpa [Fields.AllRefs] using h))
    | int _ =>
      exact step key _ rest (fun e he => by cases he) (ihr (by simpa [Fields.AllRefs] using h))
    | seq _ =>
      exact step key _ rest (fun e he => by cases he) (ihr (by simpa [Fields.AllRefs] using h))

theorem fillValue_long_missing_eq {M : Type} (S : Manager M) (smgr : M) (s : Str)
    (outs : Fields) (hv : isValidRefFormat s = true) (hl : ¬ (refSegments s).length ≤ 3)
    (hg : S.GetOutputs smgr (S.GenStateKey ((refSegments s).getD NAME_SEGMENT_NUM [])
      ((refSegments s).getD KIND_SEGMENT_NUM [])) = .ok (.map outs))
    (hk : outs.lookup ((refSegments s).getD REF_SEGMENT_NUM []) = none) :
    fillValue S smgr (.str s) =
      (.null, some ("can not find ".toList ++ (refSegments s).getD REF_SEGMENT_NUM [] ++
        " in dependency outputs".toList)) := by
  unfold refSegments at hl hg hk ⊢
  simp only [fillValue, hv, hl, if_true, if_false, hg, hk]

theorem fillValue_short {M : Type} (S : Manager M) (smgr : M) (s : Str)
    (hv : isValidRefFormat s = true) (hl : (refSegments s).length ≤ 3) :
    fillValue S smgr (.str s) =
      (.str s, some ("incorrect output reference: ".toList ++ getRefFormatString s)) := by
  unfold refSegments at hl
  simp only [fillValue, hv, hl, if_true]

/-- The errors that the loop body can return on a wrapped string leaf of four
or more segments come from `GetOutputs` or from the lookup of the key. -/
theorem fillValue_long_err {M : Type} (S : Manager M) (smgr : M) (s : Str)
    (hv : isValidRefFormat s = true) (hl : 3 < (refSegments s).length) (e : Err)
    (he : (fillValue S smgr (.str s)).2 = some e) :
    (∃ key, S.GetOutputs smgr key = .error e) ∨
      ∃ k, e = "can not find ".toList ++ k ++ " in dependency outputs".toList := by
  have hl' : ¬ (refSegments s).length ≤ 3 := by omega
  cases hg : S.GetOutputs smgr (S.GenStateKey ((refSegments s).getD NAME_SEGMENT_NUM [])
      ((refSegments s).getD KIND_SEGMENT_NUM [])) with
  | error e' =>
    rw [fillValue_long_error S smgr s e' hv hl' hg] at he
    simp only [Option.some.injEq] at he
    exact Or.inl ⟨_, he ▸ hg⟩
  | ok out =>
    by_cases hm : ∃ outs, out = .map outs
    · obtain ⟨outs, rfl⟩ := hm
      cases hlk : outs.lookup ((refSegments s).getD REF_SEGMENT_NUM []) with
      | none =>
        rw [fillValue_long_missing_eq S smgr s outs hv hl' hg hlk] at he
        simp only [Option.some.injEq] at he
        exact Or.inr ⟨_, he.symm⟩
      | some v =>
        rw [fillValue_long_found S smgr s outs v hv hl' hg hlk] at he
        cases he
    · have hnm : ∀ m, out ≠ .map m := fun m h => hm ⟨m, h⟩
      rw [fillValue_long_not_map S smgr s out hv hl' hg hnm] at he
      cases he

/-! ## Claims about the error that the reference resolver returns -/

/-- C11 as stated fails: in `mixedOptions` the leaf `q` refers to the tool
`a`, for which the State Manager holds no State, so `GetOutputs` returns an
error for it; but the resolver returns the error of the malformed leaf `p`
that it visits first. -/
theorem C11_counterexample_other_error_returned :
    mixedOptions.getPath ["q".toList] =
        some (.str (refString [] "a".toList "default".toList "url".toList [])) ∧
      memManager.GetOutputs emptyMem (memManager.GenStateKey "a".toList "default".toList) =
        .error "cannot find state by key: a_default".toList ∧
      fillRefValueWithOutputs memManager emptyMem mixedOptions =
        (mixedOptions, some "incorrect output reference: x".toList) ∧
      (some "incorrect output reference: x".toList : Option Err) ≠
        some "cannot find state by key: a_default".toList := by
  refine ⟨rfl, rfl, rfl, by decide⟩

/-- C11, amended: a reference leaf `${{a.b.outputs.k}}` (possibly spaced)
whose `GetOutputs(GenStateKey(a, b))` returns an error.  In every tree that
holds the leaf, `fillRefValueWithOutputs` returns an error and the leaf
keeps its reference string.  The error returned is that of `GetOutputs`
when the leaf is the first failing leaf that the loop visits: when the leaf
is the first entry, when the entries visited before it raise no error, and
when every other wrapped string leaf of the tree is resolvable. -/
theorem C11_lookup_error_returned {M : Type} (S : Manager M) (smgr : M)
    (ws1 a b k ws2 : Str) (e : Err) (hshape : IsRefShape ws1 a b k ws2)
    (herr : S.GetOutputs smgr (S.GenStateKey a b) = .error e) :
    (∀ key rest,
      fillRefValueWithOutputs S smgr (.cons key (.str (refString ws1 a b k ws2)) rest) =
        (.cons key (.str (refString ws1 a b k ws2)) rest, some e)) ∧
    (∀ (o : Fields) (path : List Str),
      o.getPath path = some (.str (refString ws1 a b k ws2)) →
        (fillRefValueWithOutputs S smgr o).2 ≠ none ∧
        (fillRefValueWithOutputs S smgr o).1.getPath path =
          some (.str (refString ws1 a b k ws2))) ∧
    (∀ (o : Fields) (path : List Str),
      o.getPath path = some (.str (refString ws1 a b k ws2)) →
        o.AllRefs (fun s => GoodRef S smgr s ∨ s = refString ws1 a b k ws2) →
          (fillRefValueWithOutputs S smgr o).2 = some e) ∧
    (∀ (pre : Fields) (key : Str) (rest : Fields),
      (fillRefValueWithOutputs S smgr pre).2 = none →
        fillRefValueWithOutputs S smgr
            (pre.append (.cons key (.str (refString ws1 a b k ws2)) rest)) =
          ((fillRefValueWithOutputs S smgr pre).1.append
            (.cons key (.str (refString ws1 a b k ws2)) rest), some e)) := by
  have hv := fillValue_refString_error S smgr ws1 a b k ws2 e hshape herr
  have hhead : ∀ key rest,
      fillRefValueWithOutputs S smgr (.cons key (.str (refString ws1 a b k ws2)) rest) =
        (.cons key (.str (refString ws1 a b k ws2)) rest, some e) := by
    intro key rest
    rw [fillRefValueWithOutputs_cons, hv]
  have hne : ∀ (o : Fields) (path : List Str),
      o.getPath path = some (.str (refString ws1 a b k ws2)) →
        (fillRefValueWithOutputs S smgr o).2 ≠ none := by
    intro o path hleaf hnone
    have h := (fill_getPath S smgr _ path o hnone hleaf).1
    rw [hv] at h
    cases h
  refine ⟨hhead, fun o path hleaf => ⟨hne o path hleaf, ?_⟩,
    fun o path hleaf hall => ?_, fun pre key rest hpre => ?_⟩
  · exact fill_getPath_frame S smgr _ (by rw [hv]) path o hleaf
  · have h := fill_err_of_allRefs_of S smgr _ e (by
      intro s _ hs
      rcases hs with ⟨w1, a', b', k', w2, outs, v, hsh, hs, hout, hk⟩ | hs
      · rw [hs, fillValue_refString S smgr w1 a' b' k' w2 outs v hsh hout hk]
        exact Or.inl rfl
      · rw [hs, hv]
        exact Or.inr rfl) o hall
    rcases h with h | h
    · exact absurd h (hne o path hleaf)
    · exact h
  · rw [fill_append_of_none S smgr _ pre hpre, hhead]

/-- C11 at a concrete input: the reference of `refTool` to the tool `a`,
against a State Manager that holds no State. -/
theorem C11_lookup_error_returned_witness :
    fillRefValueWithOutputs memManager emptyMem refTool.Options =
      (refTool.Options, some "cannot find state by key: a_default".toList) :=
  (C11_lookup_error_returned memManager emptyMem [] "a".toList "default".toList "url".toList []
    "cannot find state by key: a_default".toList isRefShape_plain rfl).1 "endpoint".toList .nil

/-- C20 as stated fails: in `lateShortOptions` the leaf `q` is `${{x}}`, of
one segment, but the resolver returns the error of `GetOutputs` for the leaf
`p` that it visits first, so `GetOutputs` has been called and the error is
not the one of the length check. -/
theorem C20_counterexample_other_error_returned :
    lateShortOptions.getPath ["q".toList] = some (.str "${{x}}".toList) ∧
      isValidRefFormat "${{x}}".toList = true ∧
      refSegments "${{x}}".toList = ["x".toList] ∧
      fillRefValueWithOutputs memManager emptyMem lateShortOptions =
        (lateShortOptions, some "cannot find state by key: a_default".toList) ∧
      (some "cannot find state by key: a_default".toList : Option Err) ≠
        some ("incorrect output reference: ".toList ++ getRefFormatString "${{x}}".toList) := by
  refine ⟨rfl, rfl, rfl, rfl, by decide⟩

/-- C20, amended: a string leaf `s` that starts with `${{` and ends with `}}`.
When its trimmed content has three or fewer dot-separated segments
(`${{}}` is such a leaf): in every tree that holds the leaf the resolver
returns an error and the leaf is unchanged; the error is
`incorrect output reference: <content>` when the leaf is the first failing
leaf that the loop visits (the leaf is the first entry, the entries visited
before it raise no error, or every other wrapped string leaf is
resolvable); and with the leaf as first entry the result is the same for
every State Manager, so `GetOutputs` is not called for it.  When the
content has four or more segments the length check lets the leaf through:
the resolver does what `GetOutputs` on the first two segments and the
lookup of the fourth decide; and on a tree whose wrapped string leaves all
have four or more segments, an error returned is an error of `GetOutputs`
or the error of a missing key. -/
theorem C20_length_check (s : Str) (hfmt : isValidRefFormat s = true) :
    ((refSegments s).length ≤ 3 →
      (∀ {M : Type} (S : Manager M) (smgr : M) (o : Fields) (path : List Str),
        o.getPath path = some (.str s) →
          (fillRefValueWithOutputs S smgr o).2 ≠ none ∧
          (fillRefValueWithOutputs S smgr o).1.getPath path = some (.str s)) ∧
      (∀ {M : Type} (S : Manager M) (smgr : M) (key : Str) (rest : Fields),
        fillRefValueWithOutputs S smgr (.cons key (.str s) rest) =
          (.cons key (.str s) rest,
            some ("incorrect output reference: ".toList ++ getRefFormatString s))) ∧
      (∀ {M : Type} (S : Manager M) (smgr : M) (pre : Fields) (key : Str) (rest : Fields),
        (fillRefValueWithOutputs S smgr pre).2 = none →
          fillRefValueWithOutputs S smgr (pre.append (.cons key (.str s) rest)) =
            ((fillRefValueWithOutputs S smgr pre).1.append (.cons key (.str s) rest),
              some ("incorrect output reference: ".toList ++ getRefFormatString s))) ∧
      (∀ {M : Type} (S : Manager M) (smgr : M) (o : Fields) (path : List Str),
        o.getPath path = some (.str s) →
          o.AllRefs (fun t => GoodRef S smgr t ∨ t = s) →
            (fillRefValueWithOutputs S smgr o).2 =
              some ("incorrect output reference: ".toList ++ getRefFormatString s))) ∧
    (3 < (refSegments s).length →
      ∀ {M : Type} (S : Manager M) (smgr : M) (key : Str) (rest : Fields),
        (∀ e, S.GetOutputs smgr (S.GenStateKey ((refSegments s).getD NAME_SEGMENT_NUM [])
            ((refSegments s).getD KIND_SEGMENT_NUM [])) = .error e →
          fillRefValueWithOutputs S smgr (.cons key (.str s) rest) =
            (.cons key (.str s) rest, some e)) ∧
        (∀ outs v, S.GetOutputs smgr (S.GenStateKey ((refSegments s).getD NAME_SEGMENT_NUM [])
            ((refSegments s).getD KIND_SEGMENT_NUM [])) = .ok (.map outs) →
          outs.lookup ((refSegments s).getD REF_SEGMENT_NUM []) = some v →
          fillRefValueWithOutputs S smgr (.cons key (.str s) rest) =
            fillNext key v (fillRefValueWithOutputs S smgr rest)) ∧
        (∀ outs, S.GetOutputs smgr (S.GenStateKey ((refSegments s).getD NAME_SEGMENT_NUM [])
            ((refSegments s).getD KIND_SEGMENT_NUM [])) = .ok (.map outs) →
          outs.lookup ((refSegments s).getD REF_SEGMENT_NUM []) = none →
          fillRefValueWithOutputs S smgr (.cons key (.str s) rest) =
            (.cons key .null rest,
              some ("can not find ".toList ++ (refSegments s).getD REF_SEGMENT_NUM [] ++
                " in dependency outputs".toList))) ∧
        (∀ out, S.GetOutputs smgr (S.GenStateKey ((refSegments s).getD NAME_SEGMENT_NUM [])
            ((refSegments s).getD KIND_SEGMENT_NUM [])) = .ok out →
          (∀ m, out ≠ .map m) →
          fillRefValueWithOutputs S smgr (.cons key (.str s) rest) =
            fillNext key (.str s) (fillRefValueWithOutputs S smgr rest))) ∧
    (∀ {M : Type} (S : Manager M) (smgr : M) (o : Fields),
      o.AllRefs (fun t => 3 < (refSegments t).length) →
        ∀ e, (fillRefValueWithOutputs S smgr o).2 = some e →
          (∃ key, S.GetOutputs smgr key = .error e) ∨
            ∃ k, e = "can not find ".toList ++ k ++ " in dependency outputs".toList) ∧
    isValidRefFormat "${{}}".toList = true ∧
    refSegments "${{}}".toList = [[]] := by
  refine ⟨fun hshort => ?_, fun hlong M S smgr key rest => ?_, fun S smgr o hall => ?_,
    by decide, by decide⟩
  · have hhead : ∀ {M : Type} (S : Manager M) (smgr : M) (key : Str) (rest : Fields),
        fillRefValueWithOutputs S smgr (.cons key (.str s) rest) =
          (.cons key (.str s) rest,
            some ("incorrect output reference: ".toList ++ getRefFormatString s)) := by
      intro M S smgr key rest
      rw [fillRefValueWithOutputs_cons, fillValue_short S smgr s hfmt hshort]
    have hne : ∀ {M : Type} (S : Manager M) (smgr : M) (o : Fields) (path : List Str),
        o.getPath path = some (.str s) → (fillRefValueWithOutputs S smgr o).2 ≠ none := by
      intro M S smgr o path hleaf hnone
      have h := (fill_getPath S smgr _ path o hnone hleaf).1
      rw [fillValue_short S smgr s hfmt hshort] at h
      cases h
    refine ⟨fun S smgr o path hleaf => ⟨hne S smgr o path hleaf, ?_⟩, hhead,
      fun S smgr pre key rest hpre => ?_, fun S smgr o path hleaf hall => ?_⟩
    · exact fill_getPath_frame S smgr _ (by rw [fillValue_short S smgr s hfmt hshort]) path o
        hleaf
    · rw [fill_append_of_none S smgr _ pre hpre, hhead]
    · have h := fill_err_of_allRefs_of S smgr _
        ("incorrect output reference: ".toList ++ getRefFormatString s) (by
          intro t _ ht
          rcases ht with ⟨w1, a', b', k', w2, outs, v, hsh, ht, hout, hk⟩ | ht
          · rw [ht, fillValue_refString S smgr w1 a' b' k' w2 outs v hsh hout hk]
            exact Or.inl rfl
          · rw [ht, fillValue_short S smgr s hfmt hshort]
            exact Or.inr rfl) o hall
      rcases h with h | h
      · exact absurd h (hne S smgr o path hleaf)
      · exact h
  · have hl : ¬ (refSegments s).length ≤ 3 := by omega
    refine ⟨fun e hg => ?_, fun outs v hg hk => ?_, fun outs hg hk => ?_,
      fun out hg hnm => ?_⟩
    · rw [fillRefValueWithOutputs_cons, fillValue_long_error S smgr s e hfmt hl hg]
    · rw [fillRefValueWithOutputs_cons, fillValue_long_found S smgr s outs v hfmt hl hg hk]
    · rw [fillRefValueWithOutputs_cons, fillValue_long_missing_eq S smgr s outs hfmt hl hg hk]
    · rw [fillRefValueWithOutputs_cons, fillValue_long_not_map S smgr s out hfmt hl hg hnm]
  · exact fill_err_kind_of_allRefs S smgr _ _
      (fun t ht hl e he => fillValue_long_err S smgr t ht hl e he) o hall

/-- C20 at a concrete input: the leaf `${{}}`. -/
theorem C20_length_check_witness :
    fillRefValueWithOutputs memManager plainMem emptyRefOptions =
      (emptyRefOptions, some "incorrect output reference: ".toList) :=
  ((C20_length_check "${{}}".toList (by decide)).1 (by decide)).2.1 memManager plainMem
    "e".toList .nil

end Devstream
